import Mathlib

set_option maxRecDepth 40000

/-!
Verification development for the scoped-commits extension core
(src/core.ts).  JavaScript strings are modelled as lists of UTF-16 code
units (here: List Nat); every literal used below is ASCII, where a code
unit coincides with the code point.  Each definition mirrors the source
function of the same name; regular expressions are translated to the
deterministic scanners they denote on the anchored patterns used by the
source.
-/

namespace ScopedCommits

/-- Code units of an ASCII string literal (all literals in the source that
we need are ASCII, so Char.toNat equals the UTF-16 unit). -/
def toUnits (s : String) : List Nat := s.data.map Char.toNat

/-- JavaScript whitespace class: the characters matched by the regexp
class backslash-s and removed by trim/trimStart/trimEnd. -/
def isJsWs (c : Nat) : Bool :=
  c = 9 || c = 10 || c = 11 || c = 12 || c = 13 || c = 32 || c = 160 ||
  c = 5760 || (8192 ≤ c && c ≤ 8202) || c = 8232 || c = 8233 ||
  c = 8239 || c = 8287 || c = 12288 || c = 65279

/-- JavaScript regexp line terminators (the characters a dot does not
match): LF, CR, LINE SEPARATOR, PARAGRAPH SEPARATOR. -/
def isLineTerm (c : Nat) : Bool :=
  c = 10 || c = 13 || c = 8232 || c = 8233

/-- Lowercase ASCII letter, the class [a-z]. -/
def isLowerUnit (c : Nat) : Bool := 97 ≤ c && c ≤ 122

/-- The class [a-z0-9-] of commit-type characters. -/
def isTypeCharUnit (c : Nat) : Bool :=
  isLowerUnit c || (48 ≤ c && c ≤ 57) || c = 45

/-- String.prototype.trimStart. -/
def trimStartU (l : List Nat) : List Nat := l.dropWhile isJsWs

/-- String.prototype.trimEnd. -/
def trimEndU (l : List Nat) : List Nat := (l.reverse.dropWhile isJsWs).reverse

/-- String.prototype.trim. -/
def trimU (l : List Nat) : List Nat := trimEndU (trimStartU l)

/-- String.prototype.split with a newline separator. -/
def splitNl : List Nat → List (List Nat)
  | [] => [[]]
  | c :: rest =>
    match splitNl rest with
    | [] => [[]]
    | x :: xs => if c = 10 then [] :: x :: xs else (c :: x) :: xs

/-- Array.prototype.join with a newline separator. -/
def joinNl : List (List Nat) → List Nat
  | [] => []
  | [x] => x
  | x :: y :: xs => x ++ 10 :: joinNl (y :: xs)

/-- The global replacement of CRLF by LF performed by
text.replace(CRLF-regexp, LF): a left-to-right scan over
non-overlapping matches. -/
def replaceCrLf : List Nat → List Nat
  | [] => []
  | [c] => [c]
  | c :: d :: rest =>
    if c = 13 ∧ d = 10 then 10 :: replaceCrLf rest
    else c :: replaceCrLf (d :: rest)

/-- Scanner for the global replacement of whitespace runs by a single
space: the flag records whether the scan is inside a whitespace run whose
replacement space has already been emitted. -/
def collapseWsAux : Bool → List Nat → List Nat
  | _, [] => []
  | inRun, c :: rest =>
    if isJsWs c then
      if inRun then collapseWsAux true rest
      else 32 :: collapseWsAux true rest
    else c :: collapseWsAux false rest

/-- The global replacement of whitespace runs by a single space performed
by subject.replace(whitespace-run-regexp, one space). -/
def collapseWs (l : List Nat) : List Nat := collapseWsAux false l

/-- ParsedCommitHeader from src/core.ts. -/
structure ParsedCommitHeader where
  type : List Nat
  scope : Option (List Nat)
  bang : Bool
  subject : List Nat
deriving DecidableEq, Repr

/-- Literal colon-space followed by the non-empty subject group: a run of
non-line-terminator characters reaching the end of the line, as the
anchored dot-plus group matches it. -/
def parseColonSubject (r : List Nat) : Option (List Nat) :=
  match r with
  | a :: b :: subj =>
    if a = 58 ∧ b = 32 ∧ subj ≠ [] ∧ subj.all (fun x => !isLineTerm x) then some subj
    else none
  | _ => none

/-- Shared tail of the two header regexps: the optional breaking-change
marker, then the literal colon-space and the subject.  When a bang is
present the colon-space must follow it directly; the empty alternative
of the optional group cannot succeed either, since the bang character is
not a colon, so no backtracking case is lost. -/
def parseBangColonSubject (r : List Nat) : Option (Bool × List Nat) :=
  match r with
  | [] => none
  | a :: rest =>
    if a = 33 then (parseColonSubject rest).map (fun s => (true, s))
    else (parseColonSubject (a :: rest)).map (fun s => (false, s))

/-- The first regexp of parseCommitHeader: type, parenthesised scope,
optional bang, colon-space, subject.  The scanner is the deterministic
reading of that anchored regexp: the type run and the scope run admit no
backtracking because the character that must follow each run is excluded
from the run's class. -/
def parseScoped (t : List Nat) : Option ParsedCommitHeader :=
  match t with
  | [] => none
  | c :: rest =>
    if isLowerUnit c then
      match rest.dropWhile isTypeCharUnit with
      | [] => none
      | d :: r1 =>
        if d = 40 then
          if r1.takeWhile (fun a => a != 41) = [] then none
          else
            match r1.dropWhile (fun a => a != 41) with
            | [] => none
            | e :: r2 =>
              if e = 41 then
                match parseBangColonSubject r2 with
                | some (bang, subj) =>
                  some ⟨c :: rest.takeWhile isTypeCharUnit,
                    some (r1.takeWhile (fun a => a != 41)), bang, trimU subj⟩
                | none => none
              else none
        else none
    else none

/-- The second regexp of parseCommitHeader: type, optional bang,
colon-space, subject, with no scope group. -/
def parseNoScope (t : List Nat) : Option ParsedCommitHeader :=
  match t with
  | [] => none
  | c :: rest =>
    if isLowerUnit c then
      match parseBangColonSubject (rest.dropWhile isTypeCharUnit) with
      | some (bang, subj) =>
        some ⟨c :: rest.takeWhile isTypeCharUnit, none, bang, trimU subj⟩
      | none => none
    else none

/-- parseCommitHeader from src/core.ts: trim the line, try the scoped
regexp, then the scope-free regexp, else no match. -/
def parseCommitHeader (line : List Nat) : Option ParsedCommitHeader :=
  let trimmed := trimU line
  match parseScoped trimmed with
  | some h => some h
  | none => parseNoScope trimmed

/-- Units contributed to the header by the optional breaking-change
marker, as the ternary on parsed.bang rebuilds it. -/
def bangUnits (bang : Bool) : List Nat := if bang then [33] else []

/-- Decimal digits of a number, as interpolated into a template string. -/
def natUnits (n : Nat) : List Nat := (Nat.toDigits 10 n).map Char.toNat

/-- Outcome of validateCommitMessage. -/
inductive VResult where
  | ok : VResult
  | invalid : List Nat → VResult
deriving DecidableEq, Repr

/-- The first line used by validateCommitMessage: CRLF-normalize, split on
newlines, take the first line (empty when absent), trim. -/
def headerLineOf (message : List Nat) : List Nat :=
  trimU ((splitNl (replaceCrLf message)).headD [])

/-- Rule chain of validateCommitMessage, applied to the already-extracted
header line.  A scope that is the empty string is falsy in the source and
is reported as missing, like an absent scope. -/
def validateHeaderLine (aT aS : List (List Nat)) (maxLen : Nat)
    (headerLine : List Nat) : VResult :=
  match parseCommitHeader headerLine with
  | none => .invalid (toUnits "Header is not a valid Conventional Commit header.")
  | some parsed =>
    if !(aT.contains parsed.type) then
      .invalid (toUnits "Type \"" ++ parsed.type ++ toUnits "\" is not in allowed types.")
    else
      match parsed.scope with
      | none => .invalid (toUnits "Scope is required but missing.")
      | some s =>
        if s = [] then .invalid (toUnits "Scope is required but missing.")
        else if !(aS.contains s) then
          .invalid (toUnits "Scope \"" ++ s ++ toUnits "\" is not in allowed scopes.")
        else if parsed.subject = [] then .invalid (toUnits "Subject is empty.")
        else if maxLen < parsed.subject.length then
          .invalid (toUnits "Subject is too long (" ++ natUnits parsed.subject.length ++
            toUnits " > " ++ natUnits maxLen ++ toUnits ").")
        else .ok

/-- validateCommitMessage from src/core.ts. -/
def validateCommitMessage (aT aS : List (List Nat)) (maxLen : Nat)
    (message : List Nat) : VResult :=
  validateHeaderLine aT aS maxLen (headerLineOf message)

/-- clampSubject from src/core.ts: collapse whitespace runs, trim, and if
still over the limit truncate and strip trailing whitespace. -/
def clampSubject (subject : List Nat) (maxLen : Nat) : List Nat :=
  if trimU (collapseWs subject) = [] then []
  else if (trimU (collapseWs subject)).length ≤ maxLen then trimU (collapseWs subject)
  else trimEndU ((trimU (collapseWs subject)).take maxLen)

/-- Scope units rebuilt by the repair: parentheses around a truthy
scope, nothing for an absent or empty one. -/
def repairScopePart (scope : Option (List Nat)) : List Nat :=
  match scope with
  | some s => if s = [] then [] else 40 :: (s ++ [41])
  | none => []

/-- The header rebuilt by the repair: original type, scope and bang with
the clamped subject after the literal colon-space. -/
def repairNewHeader (parsed : ParsedCommitHeader) (maxLen : Nat) : List Nat :=
  parsed.type ++ repairScopePart parsed.scope ++ bangUnits parsed.bang ++
    58 :: 32 :: clampSubject parsed.subject maxLen

/-- tryRepairSubjectLengthOnly from src/core.ts.  Note that this split is
on the raw message, without the CRLF normalization validate performs,
and that the body below the header is joined back and
trailing-trimmed. -/
def tryRepairSubjectLengthOnly (aT aS : List (List Nat)) (maxLen : Nat)
    (message : List Nat) : List Nat :=
  match validateCommitMessage aT aS maxLen message with
  | .ok => message
  | .invalid _ =>
    match parseCommitHeader (trimU ((splitNl message).headD [])) with
    | none => message
    | some parsed =>
      if parsed.subject.length ≤ maxLen then message
      else
        if trimEndU (joinNl (splitNl message).tail) = [] then
          repairNewHeader parsed maxLen
        else
          trimEndU (repairNewHeader parsed maxLen ++
            10 :: trimEndU (joinNl (splitNl message).tail))

/-- Removal of a leading fenced-code opener: three backquotes, a lazy run
of arbitrary characters, and the first newline after them; no match (and
no change) when the text does not begin with the fence or has no
newline. -/
def stripLeadingFence (t : List Nat) : List Nat :=
  if t.take 3 = [96, 96, 96] then
    match (t.drop 3).dropWhile (fun c => c != 10) with
    | [] => t
    | _ :: rest => rest
  else t

/-- Removal of a trailing newline-plus-three-backquotes fence closer
anchored at the end of the text. -/
def stripTrailingFence (t : List Nat) : List Nat :=
  if 4 ≤ t.length ∧ t.drop (t.length - 4) = [10, 96, 96, 96] then
    t.take (t.length - 4)
  else t

/-- normalizeCommitMessageText from src/core.ts. -/
def normalizeCommitMessageText (text : List Nat) : List Nat :=
  trimU (stripTrailingFence (stripLeadingFence (trimU (replaceCrLf text))))

/-- The literal ellipsis marker line inserted by truncateMiddle. -/
def truncMarker : List Nat := toUnits "\n\n... diff truncated ...\n\n"

/-- truncateMiddle from src/core.ts.  The keep width is floor of
(maxChars - 60) / 2 over the integers, as Math.floor computes it, and the
two slice calls clamp their argument at zero. -/
def truncateMiddle (text : List Nat) (maxChars : Nat) : List Nat :=
  if text.length ≤ maxChars then text
  else
    text.take (max 0 (((maxChars : Int) - 60).fdiv 2)).toNat ++ truncMarker ++
      text.drop (max 0 ((text.length : Int) - ((maxChars : Int) - 60).fdiv 2)).toNat

/-- Loop body of hasStagedChangesFromPorcelainV1 for one raw status line:
lines shorter than two characters after trailing trim are skipped, the
untracked double question mark marker is skipped, and any other
non-space first character signals a staged entry. -/
def lineIndicatesStaged (rawLine : List Nat) : Bool :=
  if (trimEndU rawLine).length < 2 then false
  else if (trimEndU rawLine).getD 0 0 = 63 && (trimEndU rawLine).getD 1 0 = 63 then
    false
  else (trimEndU rawLine).getD 0 0 != 32

/-- hasStagedChangesFromPorcelainV1 from src/core.ts.  The early-return
loop is the disjunction of its per-line test. -/
def hasStagedChangesFromPorcelainV1 (statusPorcelainV1 : List Nat) : Bool :=
  (splitNl statusPorcelainV1).any lineIndicatesStaged

/-- Loop body of stagedOnlyStatusFromPorcelainV1 for one raw status line:
keep entries with a non-blank index column that are not untracked, and
rebuild them as the index character, two spaces, and the text after the
three-character prefix. -/
def stagedOnlyLine (rawLine : List Nat) : Option (List Nat) :=
  if (trimEndU rawLine).length < 3 then none
  else if (trimEndU rawLine).getD 0 0 = 63 && (trimEndU rawLine).getD 1 0 = 63 then
    none
  else if (trimEndU rawLine).getD 0 0 = 32 then none
  else some ((trimEndU rawLine).getD 0 0 :: 32 :: 32 :: (trimEndU rawLine).drop 3)

/-- stagedOnlyStatusFromPorcelainV1 from src/core.ts. -/
def stagedOnlyStatusFromPorcelainV1 (statusPorcelainV1 : List Nat) : List Nat :=
  joinNl ((splitNl statusPorcelainV1).filterMap stagedOnlyLine)

/-- Error text prepended to the second validation reason by the
orchestrator. -/
def retryErrorUnits : List Nat :=
  toUnits "Generated message failed validation after retry: "

/-- generateWithValidationAndRetry from src/core.ts, abstracted over the
generation service: gen n is the text returned by the n-th service call.
The second component counts the service calls actually made. -/
def generateWithValidationAndRetry (aT aS : List (List Nat)) (maxLen : Nat)
    (gen : Nat → List Nat) : Except (List Nat) (List Nat) × Nat :=
  match validateCommitMessage aT aS maxLen (tryRepairSubjectLengthOnly aT aS
      maxLen (normalizeCommitMessageText (gen 0))) with
  | .ok => (.ok (tryRepairSubjectLengthOnly aT aS maxLen
      (normalizeCommitMessageText (gen 0))), 1)
  | .invalid _ =>
    match validateCommitMessage aT aS maxLen (tryRepairSubjectLengthOnly aT aS
        maxLen (normalizeCommitMessageText (gen 1))) with
    | .ok => (.ok (tryRepairSubjectLengthOnly aT aS maxLen
        (normalizeCommitMessageText (gen 1))), 2)
    | .invalid r2 => (.error (retryErrorUnits ++ r2), 2)

/-- The three scope policy modes, named as in the source configuration:
never maps to scope-required, requiredUnscoped to scope-forbidden, and
onlyIfNoGoodScope to scope-optional. -/
inductive ScopeRequirement where
  | never : ScopeRequirement
  | onlyIfNoGoodScope : ScopeRequirement
  | requiredUnscoped : ScopeRequirement
deriving DecidableEq, Repr

/-- Modelled from the spec: the scopeRequirement-aware variant of
validateCommitMessage is absent from the provided sources (only its test
suite and the ScopeRequirement type declaration are present), so its
scope rule follows section 4.3 of the spec: under never (SCOPE_REQUIRED)
the scope must be present and a member of the allowed scopes, under
requiredUnscoped (SCOPE_FORBIDDEN) it must be absent, and under
onlyIfNoGoodScope (SCOPE_OPTIONAL) it must be a member when present
while absence is allowed.  The remaining rules and their order are those
of section 4.3: parse, type membership, scope rule, non-empty subject,
subject length. -/
def scopeCheckScoped (aS : List (List Nat)) (req : ScopeRequirement)
    (scope : Option (List Nat)) : VResult :=
  match req, scope with
  | .never, none => .invalid (toUnits "Scope is required but missing.")
  | .never, some s =>
    if !(aS.contains s) then
      .invalid (toUnits "Scope \"" ++ s ++ toUnits "\" is not in allowed scopes.")
    else .ok
  | .requiredUnscoped, none => .ok
  | .requiredUnscoped, some _ =>
    .invalid (toUnits "Scope is forbidden but present.")
  | .onlyIfNoGoodScope, none => .ok
  | .onlyIfNoGoodScope, some s =>
    if !(aS.contains s) then
      .invalid (toUnits "Scope \"" ++ s ++ toUnits "\" is not in allowed scopes.")
    else .ok

/-- Modelled from the spec: rule chain of section 4.3 around the
three-way scope rule above. -/
def validateHeaderLineScoped (aT aS : List (List Nat)) (maxLen : Nat)
    (req : ScopeRequirement) (headerLine : List Nat) : VResult :=
  match parseCommitHeader headerLine with
  | none => .invalid (toUnits "Header is not a valid Conventional Commit header.")
  | some parsed =>
    if !(aT.contains parsed.type) then
      .invalid (toUnits "Type \"" ++ parsed.type ++ toUnits "\" is not in allowed types.")
    else
      match scopeCheckScoped aS req parsed.scope with
      | .invalid r => .invalid r
      | .ok =>
        if parsed.subject = [] then .invalid (toUnits "Subject is empty.")
        else if maxLen < parsed.subject.length then
          .invalid (toUnits "Subject is too long (" ++ natUnits parsed.subject.length ++
            toUnits " > " ++ natUnits maxLen ++ toUnits ").")
        else .ok

/-- Modelled from the spec: full-message wrapper of the
scopeRequirement-aware validator, extracting the header line exactly as
validateCommitMessage does. -/
def validateCommitMessageScoped (aT aS : List (List Nat)) (maxLen : Nat)
    (req : ScopeRequirement) (message : List Nat) : VResult :=
  validateHeaderLineScoped aT aS maxLen req (headerLineOf message)

/-- An input-box-like sink as the router sees it: setting its value
either succeeds or throws. -/
structure InputBoxM where
  throwsOnSet : Bool
deriving DecidableEq, Repr

/-- A repository exposed by the host git extension: an optional root path
and an optional input box. -/
structure RepoM where
  rootPath : Option (List Nat)
  inputBox : Option InputBoxM
deriving DecidableEq, Repr

/-- The host surface presentCommitMessage interacts with: the input box
resolved from the invocation context, the working directory path, the
git-extension repository list (none models a missing or failing
extension or API), and the generic source-control input box. -/
structure PresentEnv where
  preferred : Option InputBoxM
  folderPath : Option (List Nat)
  gitRepos : Option (List RepoM)
  scmInputBox : Option InputBoxM
deriving DecidableEq, Repr

/-- Which sink received the message, as returned by
presentCommitMessage. -/
inductive Sink where
  | scm : Sink
  | git : Sink
  | clipboard : Sink
deriving DecidableEq, Repr

/-- The startsWith-based containment test of pickBestRepoForPath: the
folder equals the root or extends it past a path separator (modelled as
the slash unit). -/
def pathMatches (folderPath rootPath : List Nat) : Bool :=
  folderPath = rootPath || (rootPath ++ [47]).isPrefixOf folderPath

/-- pickBestRepoForPath from src/core.ts: the repository with the longest
containing root path wins (first of equal lengths), and the first
repository is the fallback when none matches. -/
def pickBestStep (folderPath : List Nat) (acc : Option (RepoM × Nat))
    (repo : RepoM) : Option (RepoM × Nat) :=
  match repo.rootPath with
  | none => acc
  | some rootPath =>
    if pathMatches folderPath rootPath then
      match acc with
      | some (_, bestLen) =>
        if bestLen < rootPath.length then some (repo, rootPath.length) else acc
      | none => some (repo, rootPath.length)
    else acc

def pickBestRepoForPath (repositories : List RepoM) (folderPath : List Nat) :
    Option RepoM :=
  match repositories.foldl (pickBestStep folderPath) none with
  | some (repo, _) => some repo
  | none => repositories.head?

/-- tryInsertViaGitExtension from src/core.ts over the environment model:
false when the extension, its API, or a usable repository input box is
unavailable or the write throws. -/
def tryInsertViaGitExtension (env : PresentEnv) (folderPath : Option (List Nat)) :
    Bool :=
  match env.gitRepos with
  | none => false
  | some repositories =>
    if repositories.isEmpty then false
    else
      let matchingRepo := match folderPath with
        | some p => pickBestRepoForPath repositories p
        | none => repositories.head?
      match matchingRepo with
      | none => false
      | some repo =>
        match repo.inputBox with
        | none => false
        | some ib => !ib.throwsOnSet

/-- presentCommitMessage from src/core.ts: the context input box, then
the git extension scoped to the folder path, then the generic
source-control input box, then the git extension without a path, then
the clipboard. -/
def presentCommitMessage (env : PresentEnv) : Sink :=
  if (match env.preferred with
      | some ib => !ib.throwsOnSet
      | none => false) then .scm
  else if (match env.folderPath with
      | some fp => tryInsertViaGitExtension env (some fp)
      | none => false) then .git
  else if (match env.scmInputBox with
      | some ib => !ib.throwsOnSet
      | none => false) then .scm
  else if tryInsertViaGitExtension env none then .git
  else .clipboard

/-- Modelled from the spec (for comparison with the source): the router
priority order as the claim states it, where the generic commit-message
input surface is attempted before the repository list. -/
def claimOrderRouter (env : PresentEnv) : Sink :=
  if (match env.preferred with
      | some ib => !ib.throwsOnSet
      | none => false) then .scm
  else if (match env.scmInputBox with
      | some ib => !ib.throwsOnSet
      | none => false) then .scm
  else if tryInsertViaGitExtension env env.folderPath then .git
  else .clipboard

/-! Helper lemmas about the string primitives. -/

theorem takeWhile_run_append {p : Nat → Bool} :
    ∀ (xs ys : List Nat), (∀ a ∈ xs, p a = true) →
      (∀ y l, ys = y :: l → p y = false) →
      (xs ++ ys).takeWhile p = xs ∧ (xs ++ ys).dropWhile p = ys
  | [], ys, _, hy => by
    cases ys with
    | nil => simp [List.takeWhile, List.dropWhile]
    | cons y l =>
      simp [List.takeWhile, List.dropWhile, hy y l rfl]
  | x :: xs, ys, hx, hy => by
    have hpx : p x = true := hx x (List.mem_cons_self x xs)
    have ih := takeWhile_run_append xs ys
      (fun a ha => hx a (List.mem_cons_of_mem x ha)) hy
    simp [List.takeWhile, List.dropWhile, hpx, ih.1, ih.2]

theorem splitNl_ne_nil (l : List Nat) : splitNl l ≠ [] := by
  cases l with
  | nil => simp [splitNl]
  | cons c rest =>
    simp only [splitNl]
    rcases h : splitNl rest with _ | ⟨x, xs⟩
    · simp
    · by_cases hc : c = 10 <;> simp [hc]

theorem headD_splitNl (l : List Nat) :
    (splitNl l).headD [] = l.takeWhile (fun c => c != 10) := by
  induction l with
  | nil => simp [splitNl, List.takeWhile]
  | cons c rest ih =>
    simp only [splitNl]
    rcases h : splitNl rest with _ | ⟨x, xs⟩
    · exact absurd h (splitNl_ne_nil rest)
    · rw [h] at ih
      by_cases hc : c = 10
      · simp [hc, List.takeWhile]
      · have hb : (c != 10) = true := by simpa using hc
        have ih' : x = List.takeWhile (fun c => c != 10) rest := by simpa using ih
        simp [hc, List.takeWhile, hb, ih']

theorem splitNl_no_nl {a : List Nat} (h : ∀ x ∈ a, x ≠ 10) : splitNl a = [a] := by
  induction a with
  | nil => simp [splitNl]
  | cons c rest ih =>
    have hc : c ≠ 10 := h c (List.mem_cons_self c rest)
    have := ih (fun x hx => h x (List.mem_cons_of_mem c hx))
    simp [splitNl, this, hc]

theorem splitNl_append_nl {a b : List Nat} (h : ∀ x ∈ a, x ≠ 10) :
    splitNl (a ++ 10 :: b) = a :: splitNl b := by
  induction a with
  | nil =>
    simp only [List.nil_append, splitNl]
    rcases hb : splitNl b with _ | ⟨x, xs⟩
    · exact absurd hb (splitNl_ne_nil b)
    · simp
  | cons c rest ih =>
    have hc : c ≠ 10 := h c (List.mem_cons_self c rest)
    have ihr := ih (fun x hx => h x (List.mem_cons_of_mem c hx))
    simp only [List.cons_append, splitNl, List.append_eq]
    rw [ihr]
    simp [hc]

theorem splitNl_joinNl : ∀ (ls : List (List Nat)), ls ≠ [] →
    (∀ x ∈ ls, ∀ a ∈ x, a ≠ 10) → splitNl (joinNl ls) = ls
  | [], h, _ => absurd rfl h
  | [x], _, hx => by
    simp only [joinNl]
    exact splitNl_no_nl (hx x (List.mem_singleton_self x))
  | x :: y :: ls, _, hx => by
    have hxh : ∀ a ∈ x, a ≠ 10 := hx x (List.mem_cons_self _ _)
    have ih := splitNl_joinNl (y :: ls) (by simp)
      (fun z hz => hx z (List.mem_cons_of_mem x hz))
    simp only [joinNl, splitNl_append_nl hxh, ih]

theorem mem_trimStartU {a : Nat} {l : List Nat} (h : a ∈ trimStartU l) : a ∈ l :=
  (List.dropWhile_sublist _).mem h

theorem mem_trimEndU {a : Nat} {l : List Nat} (h : a ∈ trimEndU l) : a ∈ l := by
  have : a ∈ l.reverse.dropWhile isJsWs := by
    simpa [trimEndU] using h
  simpa using (List.dropWhile_sublist _).mem this

theorem mem_trimU {a : Nat} {l : List Nat} (h : a ∈ trimU l) : a ∈ l :=
  mem_trimStartU (mem_trimEndU h)

theorem trimEndU_append_decomp (l : List Nat) :
    l = trimEndU l ++ (l.reverse.takeWhile isJsWs).reverse := by
  have h : l = (List.takeWhile isJsWs l.reverse ++ List.dropWhile isJsWs l.reverse).reverse := by
    rw [List.takeWhile_append_dropWhile, List.reverse_reverse]
  rw [trimEndU]
  conv_lhs => rw [h]
  rw [List.reverse_append]

theorem trimStartU_append_decomp (l : List Nat) :
    l = l.takeWhile isJsWs ++ trimStartU l :=
  (List.takeWhile_append_dropWhile _ _).symm

theorem head_trimStartU_not_ws {c : Nat} {r l : List Nat}
    (h : trimStartU l = c :: r) : isJsWs c = false := by
  have := List.head?_dropWhile_not isJsWs l
  rw [trimStartU] at h
  rw [h] at this
  simpa using this

theorem getLast_trimEndU_not_ws {c : Nat} {r l : List Nat}
    (h : trimEndU l = r ++ [c]) : isJsWs c = false := by
  have hrev : l.reverse.dropWhile isJsWs = c :: r.reverse := by
    have : (trimEndU l).reverse = c :: r.reverse := by simp [h]
    simpa [trimEndU] using this
  have := List.head?_dropWhile_not isJsWs l.reverse
  rw [hrev] at this
  simpa using this

theorem trimStartU_eq_self {c : Nat} {r : List Nat} (h : isJsWs c = false) :
    trimStartU (c :: r) = c :: r := by
  simp [trimStartU, List.dropWhile, h]

theorem trimEndU_eq_self {l : List Nat}
    (h : ∀ c r, l = r ++ [c] → isJsWs c = false) : trimEndU l = l := by
  cases hl : l.reverse with
  | nil => simp [trimEndU, hl, List.reverse_eq_nil_iff.mp hl]
  | cons c r =>
    have hlast : l = r.reverse ++ [c] := by
      have := congrArg List.reverse hl
      simpa using this
    have hc := h c r.reverse hlast
    simp [trimEndU, hl, List.dropWhile, hc, ← hlast]

theorem trimU_eq_self {c : Nat} {r : List Nat} (hc : isJsWs c = false)
    (h : ∀ d r2, c :: r = r2 ++ [d] → isJsWs d = false) :
    trimU (c :: r) = c :: r := by
  rw [trimU, trimStartU_eq_self hc, trimEndU_eq_self h]

theorem last_unit_of_append {A r2 : List Nat} {c d : Nat}
    (h : A ++ [c] = r2 ++ [d]) : d = c := by
  have h1 : (A ++ [c]).getLast? = some c := by simp
  have h2 : (r2 ++ [d]).getLast? = some d := by simp
  rw [h, h2] at h1
  exact Option.some.inj h1

theorem mem_dropWhile_of_not {p : Nat → Bool} {a : Nat} :
    ∀ {l : List Nat}, a ∈ l → p a = false → a ∈ l.dropWhile p
  | [], h, _ => absurd h (List.not_mem_nil a)
  | c :: r, h, ha => by
    by_cases hpc : p c = true
    · rw [List.dropWhile_cons_of_pos hpc]
      rcases List.mem_cons.mp h with rfl | hr
      · rw [hpc] at ha; exact absurd ha (by simp)
      · exact mem_dropWhile_of_not hr ha
    · rw [List.dropWhile_cons_of_neg hpc]
      exact h

theorem mem_trimU_of {a : Nat} {l : List Nat} (h : a ∈ l)
    (ha : isJsWs a = false) : a ∈ trimU l := by
  have h1 : a ∈ trimStartU l := mem_dropWhile_of_not h ha
  have h2 : a ∈ (trimStartU l).reverse := List.mem_reverse.mpr h1
  have h3 := mem_dropWhile_of_not h2 ha
  simpa [trimU, trimEndU] using List.mem_reverse.mpr h3

theorem trimU_ne_nil_of_mem {a : Nat} {l : List Nat} (h : a ∈ l)
    (ha : isJsWs a = false) : trimU l ≠ [] := by
  intro hnil
  exact absurd (hnil ▸ mem_trimU_of h ha) (List.not_mem_nil a)

theorem mem_collapseWsAux {a : Nat} :
    ∀ {b : Bool} {l : List Nat}, a ∈ collapseWsAux b l →
      a = 32 ∨ (a ∈ l ∧ isJsWs a = false)
  | b, [], h => by
    rw [show collapseWsAux b [] = [] from rfl] at h
    exact absurd h (List.not_mem_nil a)
  | b, c :: r, h => by
    by_cases hws : isJsWs c = true
    · rw [collapseWsAux, if_pos hws] at h
      cases b with
      | true =>
        rw [if_pos rfl] at h
        rcases mem_collapseWsAux h with h32 | ⟨hm, hnw⟩
        · exact Or.inl h32
        · exact Or.inr ⟨List.mem_cons_of_mem c hm, hnw⟩
      | false =>
        rw [if_neg Bool.false_ne_true] at h
        rcases List.mem_cons.mp h with rfl | hr
        · exact Or.inl rfl
        · rcases mem_collapseWsAux hr with h32 | ⟨hm, hnw⟩
          · exact Or.inl h32
          · exact Or.inr ⟨List.mem_cons_of_mem c hm, hnw⟩
    · rw [collapseWsAux, if_neg hws] at h
      rcases List.mem_cons.mp h with rfl | hr
      · exact Or.inr ⟨List.mem_cons_self a r, by simpa using hws⟩
      · rcases mem_collapseWsAux hr with h32 | ⟨hm, hnw⟩
        · exact Or.inl h32
        · exact Or.inr ⟨List.mem_cons_of_mem c hm, hnw⟩

theorem mem_collapseWsAux_of_not_ws {a : Nat} (ha : isJsWs a = false) :
    ∀ {b : Bool} {l : List Nat}, a ∈ l → a ∈ collapseWsAux b l
  | _, [], h => absurd h (List.not_mem_nil a)
  | b, c :: r, h => by
    by_cases hws : isJsWs c = true
    · have hr : a ∈ r := by
        rcases List.mem_cons.mp h with rfl | hr
        · rw [hws] at ha; exact absurd ha (by simp)
        · exact hr
      rw [collapseWsAux, if_pos hws]
      cases b with
      | true =>
        rw [if_pos rfl]
        exact mem_collapseWsAux_of_not_ws ha hr
      | false =>
        rw [if_neg Bool.false_ne_true]
        exact List.mem_cons_of_mem 32 (mem_collapseWsAux_of_not_ws ha hr)
    · rw [collapseWsAux, if_neg hws]
      rcases List.mem_cons.mp h with rfl | hr
      · exact List.mem_cons_self a _
      · exact List.mem_cons_of_mem c (mem_collapseWsAux_of_not_ws ha hr)

theorem dropWhile_length_le (p : Nat → Bool) (l : List Nat) :
    (l.dropWhile p).length ≤ l.length := by
  induction l with
  | nil => simp [List.dropWhile]
  | cons a l ih =>
    simp only [List.dropWhile]
    cases p a
    · simp
    · simp only []
      calc (l.dropWhile p).length ≤ l.length := ih
      _ ≤ (a :: l).length := by simp

theorem trimEndU_length_le (l : List Nat) : (trimEndU l).length ≤ l.length := by
  have := dropWhile_length_le isJsWs l.reverse
  simpa [trimEndU] using this

/-! Parser soundness and completeness. -/

theorem parseColonSubject_sound {subj : List Nat} (h1 : subj ≠ [])
    (h2 : ∀ a ∈ subj, isLineTerm a = false) :
    parseColonSubject (58 :: 32 :: subj) = some subj := by
  have hall : subj.all (fun x => !isLineTerm x) = true := by
    rw [List.all_eq_true]
    intro x hx
    simp [h2 x hx]
  simp [parseColonSubject, h1, hall]

theorem parseColonSubject_complete {r s : List Nat}
    (h : parseColonSubject r = some s) :
    r = 58 :: 32 :: s ∧ s ≠ [] ∧ ∀ a ∈ s, isLineTerm a = false := by
  match r with
  | [] => simp [parseColonSubject] at h
  | [a] => simp [parseColonSubject] at h
  | a :: b :: subj =>
    rw [parseColonSubject] at h
    split at h
    · rename_i hcond
      obtain ⟨rfl, rfl, hne, hall⟩ := hcond
      obtain rfl : subj = s := Option.some.inj h
      refine ⟨rfl, hne, ?_⟩
      intro x hx
      have := List.all_eq_true.mp hall x hx
      simpa using this
    · exact absurd h (by simp)

theorem parseBangColonSubject_sound {subj : List Nat} (bang : Bool)
    (h1 : subj ≠ []) (h2 : ∀ a ∈ subj, isLineTerm a = false) :
    parseBangColonSubject (bangUnits bang ++ 58 :: 32 :: subj) =
      some (bang, subj) := by
  cases bang with
  | false =>
    have hb : bangUnits false ++ 58 :: 32 :: subj = 58 :: 32 :: subj := by
      simp [bangUnits]
    rw [hb, parseBangColonSubject]
    rw [if_neg (by decide), parseColonSubject_sound h1 h2]
    rfl
  | true =>
    have hb : bangUnits true ++ 58 :: 32 :: subj = 33 :: 58 :: 32 :: subj := by
      simp [bangUnits]
    rw [hb, parseBangColonSubject]
    rw [if_pos rfl, parseColonSubject_sound h1 h2]
    rfl

theorem parseBangColonSubject_complete {r : List Nat} {bang : Bool}
    {subj : List Nat} (h : parseBangColonSubject r = some (bang, subj)) :
    r = bangUnits bang ++ 58 :: 32 :: subj ∧ subj ≠ [] ∧
      ∀ a ∈ subj, isLineTerm a = false := by
  match r with
  | [] => simp [parseBangColonSubject] at h
  | a :: rest =>
    rw [parseBangColonSubject] at h
    split at h
    · rename_i ha
      rcases hcs : parseColonSubject rest with _ | s
      · rw [hcs] at h; simp at h
      · rw [hcs] at h
        simp only [Option.map_some'] at h
        obtain ⟨rfl, rfl⟩ : true = bang ∧ s = subj := by
          have := Prod.mk.inj (Option.some.inj h)
          exact ⟨this.1, this.2⟩
        obtain ⟨hr, hne, hall⟩ := parseColonSubject_complete hcs
        subst ha
        refine ⟨?_, hne, hall⟩
        simp [bangUnits, hr]
    · rename_i ha
      rcases hcs : parseColonSubject (a :: rest) with _ | s
      · rw [hcs] at h; simp at h
      · rw [hcs] at h
        simp only [Option.map_some'] at h
        obtain ⟨rfl, rfl⟩ : false = bang ∧ s = subj := by
          have := Prod.mk.inj (Option.some.inj h)
          exact ⟨this.1, this.2⟩
        obtain ⟨hr, hne, hall⟩ := parseColonSubject_complete hcs
        refine ⟨?_, hne, hall⟩
        simp [bangUnits, hr]

theorem parseScoped_sound {c : Nat} {cs s subj : List Nat} {bang : Bool}
    (hc : isLowerUnit c = true) (hcs : ∀ a ∈ cs, isTypeCharUnit a = true)
    (hs : s ≠ []) (hs41 : ∀ a ∈ s, a ≠ 41)
    (hsubj : subj ≠ []) (hlt : ∀ a ∈ subj, isLineTerm a = false) :
    parseScoped ((c :: cs) ++ 40 :: s ++ 41 :: bangUnits bang ++ 58 :: 32 :: subj) =
      some ⟨c :: cs, some s, bang, trimU subj⟩ := by
  have hrun := takeWhile_run_append (p := isTypeCharUnit)
    cs (40 :: (s ++ 41 :: (bangUnits bang ++ 58 :: 32 :: subj))) hcs
    (by
      intro y l hy
      injection hy with h1 _
      rw [← h1]
      decide)
  have hrun2 := takeWhile_run_append (p := fun a => a != 41)
    s (41 :: (bangUnits bang ++ 58 :: 32 :: subj))
    (fun a ha => by simpa using hs41 a ha)
    (by
      intro y l hy
      injection hy with h1 _
      rw [← h1]
      decide)
  simp only [List.cons_append, List.append_assoc, parseScoped, if_pos hc]
  rw [hrun.2, hrun.1]
  simp only [if_pos rfl]
  rw [hrun2.1, hrun2.2]
  simp only [if_neg hs, if_pos rfl]
  rw [parseBangColonSubject_sound bang hsubj hlt]
  simp

theorem bang_head_not_type {bang : Bool} {subj : List Nat} :
    ∀ y l, bangUnits bang ++ 58 :: 32 :: subj = y :: l →
      isTypeCharUnit y = false := by
  intro y l hy
  cases bang with
  | false =>
    rw [show bangUnits false ++ 58 :: 32 :: subj = 58 :: 32 :: subj from by
      simp [bangUnits]] at hy
    injection hy with h1 _
    rw [← h1]
    decide
  | true =>
    rw [show bangUnits true ++ 58 :: 32 :: subj = 33 :: 58 :: 32 :: subj from by
      simp [bangUnits]] at hy
    injection hy with h1 _
    rw [← h1]
    decide

theorem parseNoScope_sound {c : Nat} {cs subj : List Nat} {bang : Bool}
    (hc : isLowerUnit c = true) (hcs : ∀ a ∈ cs, isTypeCharUnit a = true)
    (hsubj : subj ≠ []) (hlt : ∀ a ∈ subj, isLineTerm a = false) :
    parseNoScope ((c :: cs) ++ bangUnits bang ++ 58 :: 32 :: subj) =
      some ⟨c :: cs, none, bang, trimU subj⟩ := by
  have hrun := takeWhile_run_append (p := isTypeCharUnit)
    cs (bangUnits bang ++ 58 :: 32 :: subj) hcs bang_head_not_type
  simp only [List.cons_append, List.append_assoc, parseNoScope, if_pos hc]
  rw [hrun.2, hrun.1, parseBangColonSubject_sound bang hsubj hlt]

theorem parseScoped_none_of_noscope {c : Nat} {cs subj : List Nat} {bang : Bool}
    (hcs : ∀ a ∈ cs, isTypeCharUnit a = true) :
    parseScoped ((c :: cs) ++ bangUnits bang ++ 58 :: 32 :: subj) = none := by
  have hrun := takeWhile_run_append (p := isTypeCharUnit)
    cs (bangUnits bang ++ 58 :: 32 :: subj) hcs bang_head_not_type
  by_cases hc : isLowerUnit c = true
  · simp only [List.cons_append, List.append_assoc, parseScoped, if_pos hc]
    rw [hrun.2]
    cases bang with
    | false =>
      rw [show bangUnits false ++ 58 :: 32 :: subj = 58 :: 32 :: subj from by
        simp [bangUnits]]
      simp
    | true =>
      rw [show bangUnits true ++ 58 :: 32 :: subj = 33 :: 58 :: 32 :: subj from by
        simp [bangUnits]]
      simp
  · simp only [List.cons_append, List.append_assoc, parseScoped]
    rw [if_neg hc]

theorem parseScoped_complete {t : List Nat} {h : ParsedCommitHeader}
    (hp : parseScoped t = some h) :
    ∃ c cs s subj,
      h = ⟨c :: cs, some s, h.bang, trimU subj⟩ ∧
      t = (c :: cs) ++ 40 :: s ++ 41 :: bangUnits h.bang ++ 58 :: 32 :: subj ∧
      isLowerUnit c = true ∧ (∀ a ∈ cs, isTypeCharUnit a = true) ∧
      s ≠ [] ∧ (∀ a ∈ s, a ≠ 41) ∧ subj ≠ [] ∧
      (∀ a ∈ subj, isLineTerm a = false) := by
  match t with
  | [] => simp [parseScoped] at hp
  | c :: rest =>
    rw [parseScoped] at hp
    by_cases hc : isLowerUnit c = true
    swap
    · rw [if_neg hc] at hp
      exact absurd hp (by simp)
    rw [if_pos hc] at hp
    rcases hdw : rest.dropWhile isTypeCharUnit with _ | ⟨d, r1⟩
    · rw [hdw] at hp
      exact absurd hp (by simp)
    rw [hdw] at hp
    simp only at hp
    by_cases hd : d = 40
    swap
    · rw [if_neg hd] at hp
      exact absurd hp (by simp)
    rw [if_pos hd] at hp
    by_cases hscope : r1.takeWhile (fun a => a != 41) = []
    · rw [if_pos hscope] at hp
      exact absurd hp (by simp)
    rw [if_neg hscope] at hp
    rcases hdw2 : r1.dropWhile (fun a => a != 41) with _ | ⟨e, r2⟩
    · rw [hdw2] at hp
      exact absurd hp (by simp)
    rw [hdw2] at hp
    simp only at hp
    by_cases he : e = 41
    swap
    · rw [if_neg he] at hp
      exact absurd hp (by simp)
    rw [if_pos he] at hp
    rcases hbcs : parseBangColonSubject r2 with _ | ⟨bang, subj⟩
    · rw [hbcs] at hp
      exact absurd hp (by simp)
    rw [hbcs] at hp
    simp only at hp
    obtain rfl : (⟨c :: rest.takeWhile isTypeCharUnit, some (r1.takeWhile (fun a => a != 41)),
        bang, trimU subj⟩ : ParsedCommitHeader) = h := Option.some.inj hp
    obtain ⟨hr2, hsubjne, hsubjlt⟩ := parseBangColonSubject_complete hbcs
    subst hd
    subst he
    refine ⟨c, rest.takeWhile isTypeCharUnit, r1.takeWhile (fun a => a != 41), subj,
      rfl, ?_, hc, ?_, hscope, ?_, hsubjne, hsubjlt⟩
    · have h1 : rest = rest.takeWhile isTypeCharUnit ++ (40 :: r1) := by
        rw [← hdw, List.takeWhile_append_dropWhile]
      have h2 : r1 = r1.takeWhile (fun a => a != 41) ++ (41 :: r2) := by
        rw [← hdw2, List.takeWhile_append_dropWhile]
      simp only [List.cons_append, List.append_assoc]
      rw [← hr2, ← h2, ← h1]
    · intro a ha
      exact List.mem_takeWhile_imp ha
    · intro a ha
      have := List.mem_takeWhile_imp ha
      simpa using this

theorem parseNoScope_complete {t : List Nat} {h : ParsedCommitHeader}
    (hp : parseNoScope t = some h) :
    ∃ c cs subj,
      h = ⟨c :: cs, none, h.bang, trimU subj⟩ ∧
      t = (c :: cs) ++ bangUnits h.bang ++ 58 :: 32 :: subj ∧
      isLowerUnit c = true ∧ (∀ a ∈ cs, isTypeCharUnit a = true) ∧
      subj ≠ [] ∧ (∀ a ∈ subj, isLineTerm a = false) := by
  match t with
  | [] => simp [parseNoScope] at hp
  | c :: rest =>
    rw [parseNoScope] at hp
    by_cases hc : isLowerUnit c = true
    swap
    · rw [if_neg hc] at hp
      exact absurd hp (by simp)
    rw [if_pos hc] at hp
    rcases hbcs : parseBangColonSubject (rest.dropWhile isTypeCharUnit)
      with _ | ⟨bang, subj⟩
    · rw [hbcs] at hp
      exact absurd hp (by simp)
    rw [hbcs] at hp
    simp only at hp
    obtain rfl : (⟨c :: rest.takeWhile isTypeCharUnit, none, bang, trimU subj⟩ :
        ParsedCommitHeader) = h := Option.some.inj hp
    obtain ⟨hr, hsubjne, hsubjlt⟩ := parseBangColonSubject_complete hbcs
    refine ⟨c, rest.takeWhile isTypeCharUnit, subj, rfl, ?_, hc, ?_, hsubjne, hsubjlt⟩
    · have h1 : rest = rest.takeWhile isTypeCharUnit ++
          rest.dropWhile isTypeCharUnit := by
        rw [List.takeWhile_append_dropWhile]
      simp only [List.cons_append, List.append_assoc]
      rw [← hr]
      exact congrArg (c :: ·) h1
    · intro a ha
      exact List.mem_takeWhile_imp ha

theorem parseCommitHeader_complete {line : List Nat} {h : ParsedCommitHeader}
    (hp : parseCommitHeader line = some h) :
    (∃ c cs s subj,
      h = ⟨c :: cs, some s, h.bang, trimU subj⟩ ∧
      trimU line = (c :: cs) ++ 40 :: s ++ 41 :: bangUnits h.bang ++ 58 :: 32 :: subj ∧
      isLowerUnit c = true ∧ (∀ a ∈ cs, isTypeCharUnit a = true) ∧
      s ≠ [] ∧ (∀ a ∈ s, a ≠ 41) ∧ subj ≠ [] ∧
      (∀ a ∈ subj, isLineTerm a = false)) ∨
    (∃ c cs subj,
      h = ⟨c :: cs, none, h.bang, trimU subj⟩ ∧
      trimU line = (c :: cs) ++ bangUnits h.bang ++ 58 :: 32 :: subj ∧
      isLowerUnit c = true ∧ (∀ a ∈ cs, isTypeCharUnit a = true) ∧
      subj ≠ [] ∧ (∀ a ∈ subj, isLineTerm a = false)) := by
  rw [parseCommitHeader] at hp
  rcases hps : parseScoped (trimU line) with _ | h2
  · rw [hps] at hp
    simp only at hp
    exact Or.inr (parseNoScope_complete hp)
  · rw [hps] at hp
    simp only at hp
    obtain rfl : h2 = h := Option.some.inj hp
    exact Or.inl (parseScoped_complete hps)

/-! First-line extraction and CRLF normalization. -/

theorem takeWhile_nl_replaceCrLf :
    ∀ l : List Nat,
      (replaceCrLf l).takeWhile (fun c => c != 10) =
        l.takeWhile (fun c => c != 10) ∨
      l.takeWhile (fun c => c != 10) =
        (replaceCrLf l).takeWhile (fun c => c != 10) ++ [13]
  | [] => Or.inl rfl
  | [c] => Or.inl rfl
  | c :: d :: rest => by
    by_cases h : c = 13 ∧ d = 10
    · obtain ⟨rfl, rfl⟩ := h
      rw [replaceCrLf, if_pos ⟨rfl, rfl⟩]
      right
      simp [List.takeWhile]
    · rw [replaceCrLf, if_neg h]
      by_cases hc : c = 10
      · subst hc
        have hb0 : ¬ ((fun x => x != 10) (10 : Nat) = true) := by decide
        left
        rw [List.takeWhile_cons_of_neg (p := fun x => x != 10) hb0,
          List.takeWhile_cons_of_neg (p := fun x => x != 10) hb0]
      · have hb : (fun x => x != 10) c = true := by simpa using hc
        rcases takeWhile_nl_replaceCrLf (d :: rest) with h1 | h1
        · left
          rw [List.takeWhile_cons_of_pos (p := fun x => x != 10) hb,
            List.takeWhile_cons_of_pos (p := fun x => x != 10) hb, h1]
        · right
          rw [List.takeWhile_cons_of_pos (p := fun x => x != 10) hb,
            List.takeWhile_cons_of_pos (p := fun x => x != 10) hb, h1]
          simp

theorem trimEndU_append_ws {w : Nat} (hw : isJsWs w = true) (Y : List Nat) :
    trimEndU (Y ++ [w]) = trimEndU Y := by
  rw [trimEndU, trimEndU, List.reverse_append]
  simp [List.dropWhile, hw]

theorem trimU_append_cr (X : List Nat) : trimU (X ++ [13]) = trimU X := by
  rw [trimU, trimU, trimStartU, trimStartU, List.dropWhile_append]
  by_cases h : (X.dropWhile isJsWs).isEmpty
  · rw [if_pos h]
    have hX : X.dropWhile isJsWs = [] := List.isEmpty_iff.mp h
    rw [hX]
    simp [List.dropWhile, trimEndU, show isJsWs 13 = true from by decide]
  · rw [if_neg h]
    exact trimEndU_append_ws (by decide) _

theorem headerLineOf_eq_raw (m : List Nat) :
    headerLineOf m = trimU ((splitNl m).headD []) := by
  rw [headerLineOf, headD_splitNl, headD_splitNl]
  rcases takeWhile_nl_replaceCrLf m with h | h
  · rw [h]
  · rw [h, trimU_append_cr]

/-! Facts extracted from a successful validation. -/

theorem validateHeaderLine_ok_facts {aT aS : List (List Nat)} {maxLen : Nat}
    {hl : List Nat} (h : validateHeaderLine aT aS maxLen hl = .ok) :
    ∃ parsed, parseCommitHeader hl = some parsed ∧
      parsed.subject.length ≤ maxLen := by
  rw [validateHeaderLine] at h
  rcases hp : parseCommitHeader hl with _ | parsed
  · rw [hp] at h
    exact absurd h (by simp)
  · rw [hp] at h
    simp only at h
    refine ⟨parsed, rfl, ?_⟩
    split at h
    · exact absurd h (by simp)
    rcases hsc : parsed.scope with _ | s
    · rw [hsc] at h
      exact absurd h (by simp)
    rw [hsc] at h
    simp only at h
    split at h
    · exact absurd h (by simp)
    split at h
    · exact absurd h (by simp)
    split at h
    · exact absurd h (by simp)
    split at h
    · exact absurd h (by simp)
    omega

/-! Properties of the subject clamp. -/

theorem clampSubject_length_le (subject : List Nat) (maxLen : Nat) :
    (clampSubject subject maxLen).length ≤ maxLen := by
  rw [clampSubject]
  split
  · simp
  · split
    · assumption
    · calc (trimEndU ((trimU (collapseWs subject)).take maxLen)).length
          ≤ ((trimU (collapseWs subject)).take maxLen).length :=
            trimEndU_length_le _
      _ ≤ maxLen := by simp [List.length_take]

theorem mem_clampSubject {a : Nat} {subject : List Nat} {maxLen : Nat}
    (h : a ∈ clampSubject subject maxLen) :
    a = 32 ∨ (a ∈ subject ∧ isJsWs a = false) := by
  rw [clampSubject] at h
  have hmem : a ∈ collapseWs subject := by
    split at h
    · exact absurd h (List.not_mem_nil a)
    · split at h
      · exact mem_trimU h
      · exact mem_trimU ((List.take_sublist _ _).mem (mem_trimEndU h))
  exact mem_collapseWsAux hmem

theorem lineterm_is_ws {a : Nat} (h : isLineTerm a = true) : isJsWs a = true := by
  rw [isLineTerm] at h
  simp only [Bool.or_eq_true, decide_eq_true_eq] at h
  rcases h with ((rfl | rfl) | rfl) | rfl <;> decide

theorem clampSubject_not_lineterm {a : Nat} {subject : List Nat} {maxLen : Nat}
    (h : a ∈ clampSubject subject maxLen) : isLineTerm a = false := by
  rcases mem_clampSubject h with rfl | ⟨_, hw⟩
  · decide
  · by_contra hne
    have ht : isLineTerm a = true := by simpa using hne
    rw [lineterm_is_ws ht] at hw
    exact absurd hw (by simp)

theorem trimU_head_not_ws {c : Nat} {r l : List Nat}
    (h : trimU l = c :: r) : isJsWs c = false := by
  have hd := trimEndU_append_decomp (trimStartU l)
  rw [trimU] at h
  rw [h] at hd
  exact head_trimStartU_not_ws (by simpa using hd)

theorem trimU_last_not_ws {c : Nat} {r l : List Nat}
    (h : trimU l = r ++ [c]) : isJsWs c = false := by
  rw [trimU] at h
  exact getLast_trimEndU_not_ws h

theorem trimU_nil : trimU [] = [] := by decide

theorem trimU_idem (l : List Nat) : trimU (trimU l) = trimU l := by
  rcases htl : trimU l with _ | ⟨c, r⟩
  · exact trimU_nil
  · exact trimU_eq_self (trimU_head_not_ws htl)
      (fun d r2 hdr => trimU_last_not_ws (htl.trans hdr))

theorem parseCommitHeader_trimU (line : List Nat) :
    parseCommitHeader (trimU line) = parseCommitHeader line := by
  rw [parseCommitHeader, parseCommitHeader, trimU_idem]

theorem mem_trimEndU_of {a : Nat} {l : List Nat} (h : a ∈ l)
    (ha : isJsWs a = false) : a ∈ trimEndU l := by
  have h1 : a ∈ l.reverse := List.mem_reverse.mpr h
  have h2 := mem_dropWhile_of_not h1 ha
  simpa [trimEndU] using List.mem_reverse.mpr h2

theorem take_eq_cons_head {l X : List Nat} {n c : Nat}
    (h : l.take n = c :: X) : ∃ r, l = c :: r := by
  cases l with
  | nil => simp at h
  | cons a l2 =>
    cases n with
    | zero => simp at h
    | succ m =>
      rw [List.take_succ_cons] at h
      injection h with h1 _
      exact ⟨l2, by rw [h1]⟩

theorem typechar_not_ws {a : Nat} (h : isTypeCharUnit a = true) :
    isJsWs a = false := by
  rw [isTypeCharUnit, isLowerUnit] at h
  rw [isJsWs]
  simp only [Bool.or_eq_true, Bool.and_eq_true, decide_eq_true_eq] at h
  simp only [Bool.or_eq_false_iff, Bool.and_eq_false_iff, decide_eq_false_iff_not,
    Bool.and_eq_true, decide_eq_true_eq]
  omega

theorem clampSubject_head_not_ws {subject : List Nat} {maxLen c : Nat}
    {r : List Nat} (h : clampSubject subject maxLen = c :: r) :
    isJsWs c = false := by
  rw [clampSubject] at h
  split at h
  · exact absurd h (by simp)
  · split at h
    · exact trimU_head_not_ws h
    · have hd := trimEndU_append_decomp ((trimU (collapseWs subject)).take maxLen)
      rw [h] at hd
      obtain ⟨r2, hr2⟩ := take_eq_cons_head (X := r ++ (((trimU (collapseWs subject)).take
        maxLen).reverse.takeWhile isJsWs).reverse) (by simpa using hd)
      exact trimU_head_not_ws hr2

theorem clampSubject_last_not_ws {subject : List Nat} {maxLen c : Nat}
    {r : List Nat} (h : clampSubject subject maxLen = r ++ [c]) :
    isJsWs c = false := by
  rw [clampSubject] at h
  split at h
  · exact absurd h (by simp)
  · split at h
    · exact trimU_last_not_ws h
    · exact getLast_trimEndU_not_ws h

theorem clampSubject_trim_self (subject : List Nat) (maxLen : Nat) :
    trimU (clampSubject subject maxLen) = clampSubject subject maxLen := by
  rcases hcl : clampSubject subject maxLen with _ | ⟨c, r⟩
  · exact trimU_nil
  · exact trimU_eq_self (clampSubject_head_not_ws hcl)
      (fun d r2 hdr => clampSubject_last_not_ws (hcl.trans hdr))

theorem clampSubject_ne_nil {subject : List Nat} {maxLen : Nat} {c0 : Nat}
    {r0 : List Nat} (hsub : subject = c0 :: r0) (hc0 : isJsWs c0 = false)
    (hml : 1 ≤ maxLen) : clampSubject subject maxLen ≠ [] := by
  have hmem : c0 ∈ collapseWs subject := by
    rw [hsub]
    exact mem_collapseWsAux_of_not_ws hc0 (List.mem_cons_self c0 r0)
  have hs0 : trimU (collapseWs subject) ≠ [] := trimU_ne_nil_of_mem hmem hc0
  rw [clampSubject]
  split
  · exact absurd (by assumption) hs0
  · split
    · exact hs0
    · rcases hs0l : trimU (collapseWs subject) with _ | ⟨d, s2⟩
      · exact absurd hs0l hs0
      · have hd : isJsWs d = false := trimU_head_not_ws hs0l
        have htake : d ∈ (d :: s2).take maxLen := by
          cases maxLen with
          | zero => omega
          | succ m =>
            rw [List.take_succ_cons]
            exact List.mem_cons_self d _
        intro hnil
        exact absurd (hnil ▸ mem_trimEndU_of htake hd) (List.not_mem_nil d)

theorem isLower_isTypeChar {c : Nat} (h : isLowerUnit c = true) :
    isTypeCharUnit c = true := by
  rw [isTypeCharUnit, h]
  simp

theorem parse_repairNewHeader_subject_le {parsed : ParsedCommitHeader}
    {maxLen : Nat} {c : Nat} {cs : List Nat} {h' : ParsedCommitHeader}
    (hty : parsed.type = c :: cs) (hc : isLowerUnit c = true)
    (hcs : ∀ a ∈ cs, isTypeCharUnit a = true)
    (hscope : ∀ s, parsed.scope = some s → s ≠ [] ∧ ∀ a ∈ s, a ≠ 41)
    (hclamp : clampSubject parsed.subject maxLen ≠ [])
    (hp : parseCommitHeader (repairNewHeader parsed maxLen) = some h') :
    h'.subject.length ≤ maxLen := by
  have hlt : ∀ a ∈ clampSubject parsed.subject maxLen, isLineTerm a = false :=
    fun a ha => clampSubject_not_lineterm ha
  have hctc : isTypeCharUnit c = true := isLower_isTypeChar hc
  have hcl2 := List.dropLast_append_getLast hclamp
  have hlastf : ∀ d rr, repairNewHeader parsed maxLen = rr ++ [d] →
      isJsWs d = false := by
    intro d rr hdr
    have hX2 : repairNewHeader parsed maxLen =
        (parsed.type ++ repairScopePart parsed.scope ++ bangUnits parsed.bang ++
          58 :: 32 :: (clampSubject parsed.subject maxLen).dropLast) ++
          [(clampSubject parsed.subject maxLen).getLast hclamp] := by
      rw [repairNewHeader]
      conv_lhs => rw [← hcl2]
      simp [List.append_assoc]
    rw [hX2] at hdr
    rw [last_unit_of_append hdr]
    exact clampSubject_last_not_ws hcl2.symm
  have htrim : trimU (repairNewHeader parsed maxLen) =
      repairNewHeader parsed maxLen := by
    rcases hXc : repairNewHeader parsed maxLen with _ | ⟨x0, xr⟩
    · exact trimU_nil
    · have hx0 : x0 = c := by
        have h2 := hXc
        rw [repairNewHeader, hty] at h2
        simp only [List.cons_append] at h2
        injection h2 with h3 _
        exact h3.symm
      subst hx0
      exact trimU_eq_self (typechar_not_ws hctc)
        (fun d r2 hdr => hlastf d r2 (hXc.trans hdr))
  rw [parseCommitHeader, htrim] at hp
  rcases hsc : parsed.scope with _ | s
  · have hX : repairNewHeader parsed maxLen =
        (c :: cs) ++ bangUnits parsed.bang ++
          58 :: 32 :: clampSubject parsed.subject maxLen := by
      rw [repairNewHeader, hty, hsc, repairScopePart]
      simp
    rw [hX, parseScoped_none_of_noscope hcs,
      parseNoScope_sound hc hcs hclamp hlt] at hp
    simp only at hp
    have hh : h' = ⟨c :: cs, none, parsed.bang,
        trimU (clampSubject parsed.subject maxLen)⟩ := (Option.some.inj hp).symm
    rw [hh]
    simp only
    rw [clampSubject_trim_self]
    exact clampSubject_length_le _ _
  · obtain ⟨hs1, hs2⟩ := hscope s hsc
    have hX : repairNewHeader parsed maxLen =
        (c :: cs) ++ 40 :: s ++ 41 :: bangUnits parsed.bang ++
          58 :: 32 :: clampSubject parsed.subject maxLen := by
      rw [repairNewHeader, hty, hsc, repairScopePart]
      simp only [if_neg hs1]
      simp [List.append_assoc]
    rw [hX, parseScoped_sound hc hcs hs1 hs2 hclamp hlt] at hp
    simp only at hp
    have hh : h' = ⟨c :: cs, some s, parsed.bang,
        trimU (clampSubject parsed.subject maxLen)⟩ := (Option.some.inj hp).symm
    rw [hh]
    simp only
    rw [clampSubject_trim_self]
    exact clampSubject_length_le _ _

theorem trimEndU_idem (l : List Nat) : trimEndU (trimEndU l) = trimEndU l := by
  rcases htl : trimEndU l with _ | ⟨c, r⟩
  · decide
  · exact trimEndU_eq_self (fun d r2 hdr => getLast_trimEndU_not_ws (htl.trans hdr))

theorem repair_cases (aT aS : List (List Nat)) (maxLen : Nat) (message : List Nat) :
    (validateCommitMessage aT aS maxLen message = .ok ∧
      tryRepairSubjectLengthOnly aT aS maxLen message = message) ∨
    ((∃ r, validateCommitMessage aT aS maxLen message = .invalid r) ∧
      parseCommitHeader (trimU ((splitNl message).headD [])) = none ∧
      tryRepairSubjectLengthOnly aT aS maxLen message = message) ∨
    (∃ r parsed, validateCommitMessage aT aS maxLen message = .invalid r ∧
      parseCommitHeader (trimU ((splitNl message).headD [])) = some parsed ∧
      parsed.subject.length ≤ maxLen ∧
      tryRepairSubjectLengthOnly aT aS maxLen message = message) ∨
    (∃ r parsed, validateCommitMessage aT aS maxLen message = .invalid r ∧
      parseCommitHeader (trimU ((splitNl message).headD [])) = some parsed ∧
      maxLen < parsed.subject.length ∧
      tryRepairSubjectLengthOnly aT aS maxLen message =
        (if trimEndU (joinNl (splitNl message).tail) = [] then
          repairNewHeader parsed maxLen
        else trimEndU (repairNewHeader parsed maxLen ++
          10 :: trimEndU (joinNl (splitNl message).tail)))) := by
  rcases hv : validateCommitMessage aT aS maxLen message with _ | r
  · left
    refine ⟨rfl, ?_⟩
    rw [tryRepairSubjectLengthOnly, hv]
  · rcases hp : parseCommitHeader (trimU ((splitNl message).headD [])) with _ | parsed
    · right
      left
      refine ⟨⟨r, rfl⟩, rfl, ?_⟩
      rw [tryRepairSubjectLengthOnly, hv]
      simp only
      rw [hp]
    · by_cases hl : parsed.subject.length ≤ maxLen
      · right
        right
        left
        refine ⟨r, parsed, rfl, rfl, hl, ?_⟩
        rw [tryRepairSubjectLengthOnly, hv]
        simp only
        rw [hp]
        simp only
        rw [if_pos hl]
      · right
        right
        right
        refine ⟨r, parsed, rfl, rfl, by omega, ?_⟩
        rw [tryRepairSubjectLengthOnly, hv]
        simp only
        rw [hp]
        simp only
        rw [if_neg hl]

theorem mem_firstline_ne_nl {a : Nat} (message : List Nat)
    (h : a ∈ trimU ((splitNl message).headD [])) : a ≠ 10 := by
  rw [headD_splitNl] at h
  have := List.mem_takeWhile_imp (mem_trimU h)
  simpa using this

theorem repair_parsed_facts {message : List Nat} {parsed : ParsedCommitHeader}
    (hp : parseCommitHeader (trimU ((splitNl message).headD [])) = some parsed) :
    (∃ c cs, parsed.type = c :: cs ∧ isLowerUnit c = true ∧
      (∀ a ∈ cs, isTypeCharUnit a = true)) ∧
    (∀ s, parsed.scope = some s →
      s ≠ [] ∧ (∀ a ∈ s, a ≠ 41) ∧ (∀ a ∈ s, a ≠ 10)) ∧
    (∃ raw, parsed.subject = trimU raw) := by
  rcases parseCommitHeader_complete hp with
    ⟨c, cs, s, subj, heq, hdec, hc, hcs, hs1, hs41, hsubne, hsublt⟩ |
    ⟨c, cs, subj, heq, hdec, hc, hcs, hsubne, hsublt⟩
  · rw [trimU_idem] at hdec
    refine ⟨⟨c, cs, by rw [heq], hc, hcs⟩, ?_, ⟨subj, by rw [heq]⟩⟩
    intro s2 hs2
    have hs2e : s2 = s := by
      rw [heq] at hs2
      simp only at hs2
      exact (Option.some.inj hs2).symm
    subst hs2e
    refine ⟨hs1, hs41, ?_⟩
    intro a ha
    refine mem_firstline_ne_nl message ?_
    rw [hdec]
    simp [List.mem_append, ha]
  · rw [trimU_idem] at hdec
    refine ⟨⟨c, cs, by rw [heq], hc, hcs⟩, ?_, ⟨subj, by rw [heq]⟩⟩
    intro s2 hs2
    rw [heq] at hs2
    exact absurd hs2 (by simp)

theorem nl_not_mem_repairNewHeader {parsed : ParsedCommitHeader} {maxLen : Nat}
    {c : Nat} {cs : List Nat}
    (hty : parsed.type = c :: cs) (hc : isLowerUnit c = true)
    (hcs : ∀ a ∈ cs, isTypeCharUnit a = true)
    (hsc : ∀ s, parsed.scope = some s → ∀ a ∈ s, a ≠ 10) :
    (10 : Nat) ∉ repairNewHeader parsed maxLen := by
  rw [repairNewHeader, hty]
  intro hmem
  simp only [List.mem_append, List.mem_cons] at hmem
  rcases hmem with ((hA | hB) | hC) | hD
  · rcases hA with h10 | h10
    · rw [← h10] at hc
      exact absurd hc (by decide)
    · exact absurd (hcs 10 h10) (by decide)
  · rcases hsp : parsed.scope with _ | s
    · rw [hsp] at hB
      simp [repairScopePart] at hB
    · rw [hsp, repairScopePart.eq_def] at hB
      simp only at hB
      split at hB
      · exact absurd hB (List.not_mem_nil 10)
      · rcases List.mem_cons.mp hB with h40 | hB2
        · exact absurd h40 (by decide)
        · rcases List.mem_append.mp hB2 with hB3 | hB4
          · exact absurd rfl (hsc s hsp 10 hB3)
          · rcases List.mem_singleton.mp hB4 with h41
            exact absurd h41 (by decide)
  · rw [bangUnits] at hC
    split at hC
    · exact absurd (List.mem_singleton.mp hC) (by decide)
    · exact absurd hC (List.not_mem_nil 10)
  · rcases hD with h58 | h32 | hcl
    · exact absurd h58 (by decide)
    · exact absurd h32 (by decide)
    · rcases mem_clampSubject hcl with h10 | ⟨_, hws⟩
      · exact absurd h10 (by decide)
      · exact absurd hws (by decide)

theorem firstline_modified {parsed : ParsedCommitHeader} {maxLen : Nat}
    {message : List Nat}
    (h10 : (10 : Nat) ∉ repairNewHeader parsed maxLen) :
    trimU ((splitNl (if trimEndU (joinNl (splitNl message).tail) = [] then
        repairNewHeader parsed maxLen
      else trimEndU (repairNewHeader parsed maxLen ++
        10 :: trimEndU (joinNl (splitNl message).tail)))).headD []) =
    trimU (repairNewHeader parsed maxLen) := by
  split
  · rw [splitNl_no_nl (fun x hx hx10 => h10 (hx10 ▸ hx))]
    simp
  · rename_i hrest
    rcases hr : trimEndU (joinNl (splitNl message).tail) with _ | ⟨e0, er⟩
    · exact absurd hr hrest
    · have hlast : ∀ d r2, repairNewHeader parsed maxLen ++ 10 :: (e0 :: er) =
          r2 ++ [d] → isJsWs d = false := by
        intro d r2 hdr
        have hdecomp := List.dropLast_append_getLast
          (l := e0 :: er) (by simp)
        have hrewrite : repairNewHeader parsed maxLen ++ 10 :: (e0 :: er) =
            (repairNewHeader parsed maxLen ++ 10 :: (e0 :: er).dropLast) ++
              [(e0 :: er).getLast (by simp)] := by
          conv_lhs => rw [← hdecomp]
          simp
        rw [hrewrite] at hdr
        rw [last_unit_of_append hdr]
        exact getLast_trimEndU_not_ws (hr.trans hdecomp.symm)
      rw [trimEndU_eq_self hlast,
        splitNl_append_nl (fun x hx hx10 => h10 (hx10 ▸ hx))]
      simp

theorem repair_subject_le {aT aS : List (List Nat)} {maxLen : Nat}
    (message : List Nat) (hml : 1 ≤ maxLen) {h' : ParsedCommitHeader}
    (hparse : parseCommitHeader (trimU ((splitNl
      (tryRepairSubjectLengthOnly aT aS maxLen message)).headD [])) = some h') :
    h'.subject.length ≤ maxLen := by
  rcases repair_cases aT aS maxLen message with ⟨hv, hr⟩ | ⟨⟨r, hv⟩, hp, hr⟩ |
    ⟨r, parsed, hv, hp, hle, hr⟩ | ⟨r, parsed, hv, hp, hlt, hr⟩
  · rw [hr] at hparse
    rw [validateCommitMessage] at hv
    obtain ⟨parsed, hp2, hle⟩ := validateHeaderLine_ok_facts hv
    rw [headerLineOf_eq_raw] at hp2
    rw [hp2] at hparse
    obtain rfl := Option.some.inj hparse
    exact hle
  · rw [hr] at hparse
    rw [hp] at hparse
    exact absurd hparse (by simp)
  · rw [hr] at hparse
    rw [hp] at hparse
    obtain rfl := Option.some.inj hparse
    exact hle
  · obtain ⟨⟨c, cs, hty, hc, hcs⟩, hsc, ⟨raw, hsubeq⟩⟩ := repair_parsed_facts hp
    have h10 : (10 : Nat) ∉ repairNewHeader parsed maxLen :=
      nl_not_mem_repairNewHeader hty hc hcs (fun s hs => (hsc s hs).2.2)
    rw [hr, firstline_modified h10, parseCommitHeader_trimU] at hparse
    rcases hsubc : parsed.subject with _ | ⟨c0, r0⟩
    · rw [hsubc] at hlt
      simp at hlt
    · have hc0 : isJsWs c0 = false := by
        refine trimU_head_not_ws (r := r0) (l := raw) ?_
        rw [← hsubeq]
        exact hsubc
      have hclamp := clampSubject_ne_nil hsubc hc0 hml
      exact parse_repairNewHeader_subject_le hty hc hcs
        (fun s hs => ⟨(hsc s hs).1, (hsc s hs).2.1⟩) hclamp hparse

theorem repair_idem (aT aS : List (List Nat)) {maxLen : Nat} (hml : 1 ≤ maxLen)
    (message : List Nat) :
    tryRepairSubjectLengthOnly aT aS maxLen
        (tryRepairSubjectLengthOnly aT aS maxLen message) =
      tryRepairSubjectLengthOnly aT aS maxLen message := by
  conv_lhs => rw [tryRepairSubjectLengthOnly]
  rcases hv : validateCommitMessage aT aS maxLen
      (tryRepairSubjectLengthOnly aT aS maxLen message) with _ | r
  · rfl
  · simp only
    rcases hparse : parseCommitHeader (trimU ((splitNl
        (tryRepairSubjectLengthOnly aT aS maxLen message)).headD [])) with _ | h'
    · rfl
    · simp only
      rw [if_pos (repair_subject_le message hml hparse)]

/-! Claim theorems. -/

/-- C9: repair is idempotent, a message whose parsed subject is already
within maxSubjectLength is returned unchanged, and the repaired output's
parsed subject never exceeds maxSubjectLength; the policy bounds
20 and 120 on maxSubjectLength are the resolved-policy invariant. -/
theorem c9_repair_idempotent_and_bounded (aT aS : List (List Nat))
    (maxLen : Nat) (message : List Nat) (hml : 20 ≤ maxLen)
    (hmu : maxLen ≤ 120) :
    tryRepairSubjectLengthOnly aT aS maxLen
        (tryRepairSubjectLengthOnly aT aS maxLen message) =
      tryRepairSubjectLengthOnly aT aS maxLen message ∧
    (∀ h, parseCommitHeader (trimU ((splitNl message).headD [])) = some h →
      h.subject.length ≤ maxLen →
      tryRepairSubjectLengthOnly aT aS maxLen message = message) ∧
    (∀ h', parseCommitHeader (trimU ((splitNl
        (tryRepairSubjectLengthOnly aT aS maxLen message)).headD [])) =
          some h' →
      h'.subject.length ≤ maxLen) := by
  refine ⟨repair_idem aT aS (by omega) message, ?_, ?_⟩
  · intro h hp hle
    rw [tryRepairSubjectLengthOnly]
    rcases hv : validateCommitMessage aT aS maxLen message with _ | r
    · rfl
    · simp only
      rw [hp]
      simp only
      rw [if_pos hle]
  · intro h' hparse
    exact repair_subject_le message (by omega) hparse

/-- Witness for C9 at a concrete policy and two concrete messages: a
too-long subject (idempotence conjunct) and an in-limit subject
(unchanged conjunct). -/
theorem c9_witness :
    tryRepairSubjectLengthOnly [toUnits "feat"] [toUnits "core"] 20
        (tryRepairSubjectLengthOnly [toUnits "feat"] [toUnits "core"] 20
          (toUnits "feat(core): this subject is far too long for the limit")) =
      tryRepairSubjectLengthOnly [toUnits "feat"] [toUnits "core"] 20
        (toUnits "feat(core): this subject is far too long for the limit") ∧
    tryRepairSubjectLengthOnly [toUnits "feat"] [toUnits "core"] 20
        (toUnits "feat(core): ok") = toUnits "feat(core): ok" :=
  ⟨(c9_repair_idempotent_and_bounded [toUnits "feat"] [toUnits "core"] 20
      (toUnits "feat(core): this subject is far too long for the limit")
      (by decide) (by decide)).1,
   (c9_repair_idempotent_and_bounded [toUnits "feat"] [toUnits "core"] 20
      (toUnits "feat(core): ok") (by decide) (by decide)).2.1
      ⟨toUnits "feat", some (toUnits "core"), false, toUnits "ok"⟩
      (by decide) (by decide)⟩

/-- C2 (amended): the repair leaves the message unchanged when validation
passes, when the header does not parse, or when the parsed subject is
within the limit; and whenever it does modify the message, validation had
failed and the parsed subject exceeded the limit — but it does not check
that subject length was the sole failing rule. -/
theorem c2_repair_trigger (aT aS : List (List Nat)) (maxLen : Nat)
    (message : List Nat) :
    (validateCommitMessage aT aS maxLen message = .ok →
      tryRepairSubjectLengthOnly aT aS maxLen message = message) ∧
    (parseCommitHeader (trimU ((splitNl message).headD [])) = none →
      tryRepairSubjectLengthOnly aT aS maxLen message = message) ∧
    (∀ h, parseCommitHeader (trimU ((splitNl message).headD [])) = some h →
      h.subject.length ≤ maxLen →
      tryRepairSubjectLengthOnly aT aS maxLen message = message) ∧
    (tryRepairSubjectLengthOnly aT aS maxLen message ≠ message →
      validateCommitMessage aT aS maxLen message ≠ .ok ∧
      ∃ h, parseCommitHeader (trimU ((splitNl message).headD [])) = some h ∧
        maxLen < h.subject.length) := by
  refine ⟨?_, ?_, ?_, ?_⟩
  · intro hv
    rw [tryRepairSubjectLengthOnly, hv]
  · intro hp
    rw [tryRepairSubjectLengthOnly]
    rcases hv : validateCommitMessage aT aS maxLen message with _ | r
    · rfl
    · simp only
      rw [hp]
  · intro h hp hle
    rw [tryRepairSubjectLengthOnly]
    rcases hv : validateCommitMessage aT aS maxLen message with _ | r
    · rfl
    · simp only
      rw [hp]
      simp only
      rw [if_pos hle]
  · intro hne
    rcases repair_cases aT aS maxLen message with ⟨hv, hr⟩ | ⟨⟨r, hv⟩, hp, hr⟩ |
      ⟨r, parsed, hv, hp, hle, hr⟩ | ⟨r, parsed, hv, hp, hlt, hr⟩
    · exact absurd hr hne
    · exact absurd hr hne
    · exact absurd hr hne
    · exact ⟨by rw [hv]; simp, parsed, hp, hlt⟩

/-- Counterexample to C2 as stated: the type rule fails (type bad is not
allowed), which the claim says must leave the message untouched, yet the
repair still clamps the over-long subject and returns a modified
message. -/
theorem c2_counterexample :
    validateCommitMessage [toUnits "feat"] [toUnits "core"] 20
        (toUnits "bad(core): aaaaaaaaaaaaaaaaaaaaaaaaa") =
      .invalid (toUnits "Type \"bad\" is not in allowed types.") ∧
    tryRepairSubjectLengthOnly [toUnits "feat"] [toUnits "core"] 20
        (toUnits "bad(core): aaaaaaaaaaaaaaaaaaaaaaaaa") =
      toUnits "bad(core): aaaaaaaaaaaaaaaaaaaa" ∧
    tryRepairSubjectLengthOnly [toUnits "feat"] [toUnits "core"] 20
        (toUnits "bad(core): aaaaaaaaaaaaaaaaaaaaaaaaa") ≠
      toUnits "bad(core): aaaaaaaaaaaaaaaaaaaaaaaaa" := by
  refine ⟨by decide, by decide, by decide⟩

/-- Witness for C2 at concrete inputs: a fully valid message and an
unparseable one are both returned unchanged. -/
theorem c2_witness :
    tryRepairSubjectLengthOnly [toUnits "feat"] [toUnits "core"] 80
        (toUnits "feat(core): ok") = toUnits "feat(core): ok" ∧
    tryRepairSubjectLengthOnly [toUnits "feat"] [toUnits "core"] 80
        (toUnits "not a header") = toUnits "not a header" :=
  ⟨(c2_repair_trigger [toUnits "feat"] [toUnits "core"] 80
      (toUnits "feat(core): ok")).1 (by decide),
   (c2_repair_trigger [toUnits "feat"] [toUnits "core"] 80
      (toUnits "not a header")).2.1 (by decide)⟩

/-- Type run as the grammar actually requires it: a lowercase letter
followed by lowercase letters, digits, and hyphens. -/
def typeRunOk : List Nat → Bool
  | [] => false
  | c :: cs => isLowerUnit c && cs.all isTypeCharUnit

/-- Type run as claim C6 words it: any non-empty run of lowercase
letters, digits, and hyphens. -/
def claimTypeRunOk (ty : List Nat) : Bool :=
  !ty.isEmpty && ty.all isTypeCharUnit

/-- Scope run: non-empty, free of the closing parenthesis. -/
def scopeRunOk (s : List Nat) : Bool :=
  !s.isEmpty && s.all (fun a => a != 41)

/-- Subject run: non-empty and free of line terminators, the constraint
the anchored dot-plus group imposes. -/
def subjectRunOk (subj : List Nat) : Bool :=
  !subj.isEmpty && subj.all (fun a => !isLineTerm a)

/-- A line of scoped header shape, stated from the grammar claim. -/
def ScopedShape (line ty s : List Nat) (bang : Bool) (subj : List Nat) : Prop :=
  trimU line = ty ++ 40 :: s ++ 41 :: bangUnits bang ++ 58 :: 32 :: subj ∧
  typeRunOk ty = true ∧ scopeRunOk s = true ∧ subjectRunOk subj = true

/-- A line of scope-free header shape, stated from the grammar claim. -/
def NoScopeShape (line ty : List Nat) (bang : Bool) (subj : List Nat) : Prop :=
  trimU line = ty ++ bangUnits bang ++ 58 :: 32 :: subj ∧
  typeRunOk ty = true ∧ subjectRunOk subj = true

/-- A scope-free line of the shape claim C6 literally describes, with the
type allowed to start with a digit or hyphen. -/
def ClaimNoScopeShape (line ty : List Nat) (bang : Bool) (subj : List Nat) :
    Prop :=
  trimU line = ty ++ bangUnits bang ++ 58 :: 32 :: subj ∧
  claimTypeRunOk ty = true ∧ subjectRunOk subj = true

/-- C6 (amended): header parsing is total, every line of the (amended)
scoped or scope-free shape parses to the expected header with the subject
trimmed, and conversely every successful parse arises from such a shape;
the amendment is that the type must start with a lowercase letter rather
than any run character. -/
theorem c6_parse_header_total (line : List Nat) :
    (∀ ty s bang subj, ScopedShape line ty s bang subj →
      parseCommitHeader line = some ⟨ty, some s, bang, trimU subj⟩) ∧
    (∀ ty bang subj, NoScopeShape line ty bang subj →
      parseCommitHeader line = some ⟨ty, none, bang, trimU subj⟩) ∧
    (∀ h, parseCommitHeader line = some h →
      (∃ s subj, h.scope = some s ∧ ScopedShape line h.type s h.bang subj ∧
        h.subject = trimU subj) ∨
      (∃ subj, h.scope = none ∧ NoScopeShape line h.type h.bang subj ∧
        h.subject = trimU subj)) := by
  refine ⟨?_, ?_, ?_⟩
  · intro ty s bang subj hsh
    obtain ⟨hdec, hty, hs, hsubj⟩ := hsh
    rcases ty with _ | ⟨c, cs⟩
    · exact absurd hty (by simp [typeRunOk])
    · rw [typeRunOk, Bool.and_eq_true, List.all_eq_true] at hty
      rw [scopeRunOk, Bool.and_eq_true, List.all_eq_true] at hs
      rw [subjectRunOk, Bool.and_eq_true, List.all_eq_true] at hsubj
      rw [parseCommitHeader]
      rw [hdec, parseScoped_sound hty.1 hty.2 (by simpa using hs.1)
        (fun a ha => by simpa using hs.2 a ha) (by simpa using hsubj.1)
        (fun a ha => by simpa using hsubj.2 a ha)]
  · intro ty bang subj hsh
    obtain ⟨hdec, hty, hsubj⟩ := hsh
    rcases ty with _ | ⟨c, cs⟩
    · exact absurd hty (by simp [typeRunOk])
    · rw [typeRunOk, Bool.and_eq_true, List.all_eq_true] at hty
      rw [subjectRunOk, Bool.and_eq_true, List.all_eq_true] at hsubj
      rw [parseCommitHeader]
      rw [hdec, parseScoped_none_of_noscope hty.2,
        parseNoScope_sound hty.1 hty.2 (by simpa using hsubj.1)
          (fun a ha => by simpa using hsubj.2 a ha)]
  · intro h hp
    rcases parseCommitHeader_complete hp with
      ⟨c, cs, s, subj, heq, hdec, hc, hcs, hs1, hs41, hsubne, hsublt⟩ |
      ⟨c, cs, subj, heq, hdec, hc, hcs, hsubne, hsublt⟩
    · left
      refine ⟨s, subj, by rw [heq], ⟨?_, ?_, ?_, ?_⟩, by rw [heq]⟩
      · rw [heq]
        simpa using hdec
      · rw [heq]
        simp only [typeRunOk, Bool.and_eq_true, List.all_eq_true]
        exact ⟨hc, hcs⟩
      · rw [scopeRunOk, Bool.and_eq_true, List.all_eq_true]
        refine ⟨by simpa using hs1, fun a ha => by simpa using hs41 a ha⟩
      · rw [subjectRunOk, Bool.and_eq_true, List.all_eq_true]
        refine ⟨by simpa using hsubne, fun a ha => by simpa using hsublt a ha⟩
    · right
      refine ⟨subj, by rw [heq], ⟨?_, ?_, ?_⟩, by rw [heq]⟩
      · rw [heq]
        simpa using hdec
      · rw [heq]
        simp only [typeRunOk, Bool.and_eq_true, List.all_eq_true]
        exact ⟨hc, hcs⟩
      · rw [subjectRunOk, Bool.and_eq_true, List.all_eq_true]
        refine ⟨by simpa using hsubne, fun a ha => by simpa using hsublt a ha⟩

/-- Counterexample to C6 as stated: the line with type 0 fits the claim
shape (a non-empty run of lowercase letters, digits, and hyphens before
the colon-space), yet the parser yields no match because the regexp
requires the type to start with a lowercase letter. -/
theorem c6_counterexample :
    ClaimNoScopeShape (toUnits "0: x") (toUnits "0") false (toUnits "x") ∧
    parseCommitHeader (toUnits "0: x") = none := by
  exact ⟨⟨by decide, by decide, by decide⟩, by decide⟩

/-- Witness for C6 at the two concrete example lines of the claim. -/
theorem c6_witness :
    parseCommitHeader (toUnits "feat(ui)!: add x") =
      some ⟨toUnits "feat", some (toUnits "ui"), true, toUnits "add x"⟩ ∧
    parseCommitHeader (toUnits "chore: y") =
      some ⟨toUnits "chore", none, false, toUnits "y"⟩ := by
  constructor
  · have h1 := (c6_parse_header_total (toUnits "feat(ui)!: add x")).1
      (toUnits "feat") (toUnits "ui") true (toUnits "add x")
      ⟨by decide, by decide, by decide, by decide⟩
    have h2 : trimU (toUnits "add x") = toUnits "add x" := by decide
    rw [h2] at h1
    exact h1
  · have h1 := (c6_parse_header_total (toUnits "chore: y")).2.1
      (toUnits "chore") false (toUnits "y")
      ⟨by decide, by decide, by decide⟩
    have h2 : trimU (toUnits "y") = toUnits "y" := by decide
    rw [h2] at h1
    exact h1

theorem lineIndicatesStaged_iff {l : List Nat}
    (hwf : trimEndU l = [] ∨ 2 ≤ (trimEndU l).length) :
    lineIndicatesStaged l = true ↔
      trimEndU l ≠ [] ∧ (trimEndU l).headD 0 ≠ 32 ∧
        (trimEndU l).take 2 ≠ [63, 63] := by
  rw [lineIndicatesStaged]
  rcases htl : trimEndU l with _ | ⟨a, rest⟩
  · simp
  · rcases rest with _ | ⟨b, rest2⟩
    · rcases hwf with hnil | hlen
      · exact absurd (htl ▸ hnil) (by simp)
      · rw [htl] at hlen
        simp at hlen
    · have h2 : ¬ ((a :: b :: rest2).length < 2) := by
        simp
      rw [if_neg h2]
      simp only [List.getD_cons_zero, List.getD_cons_succ]
      by_cases ha : a = 63 <;> by_cases hb : b = 63 <;>
        simp [ha, hb, List.take_succ_cons]

/-- C5: staged-change detection is true exactly when some status line,
after trailing trim, is non-empty with a first character other than a
space and does not begin with the double question mark untracked marker;
the hypothesis is the two-column porcelain well-formedness (each line
trims to empty or to at least the two status columns). -/
theorem c5_has_staged_changes (status : List Nat)
    (hwf : ∀ l ∈ splitNl status,
      trimEndU l = [] ∨ 2 ≤ (trimEndU l).length) :
    hasStagedChangesFromPorcelainV1 status = true ↔
      ∃ l ∈ splitNl status, trimEndU l ≠ [] ∧
        (trimEndU l).headD 0 ≠ 32 ∧ (trimEndU l).take 2 ≠ [63, 63] := by
  rw [hasStagedChangesFromPorcelainV1, List.any_eq_true]
  constructor
  · rintro ⟨l, hl, hline⟩
    exact ⟨l, hl, (lineIndicatesStaged_iff (hwf l hl)).mp hline⟩
  · rintro ⟨l, hl, hprop⟩
    exact ⟨l, hl, (lineIndicatesStaged_iff (hwf l hl)).mpr hprop⟩

/-- Witness for C5 at a concrete status text with an untracked line, an
unstaged line, and a staged line. -/
theorem c5_witness :
    hasStagedChangesFromPorcelainV1
      (toUnits "?? new-file.ts\n M unstaged.ts\nM  staged.ts") = true :=
  (c5_has_staged_changes
      (toUnits "?? new-file.ts\n M unstaged.ts\nM  staged.ts")
      (by decide)).mpr
    ⟨toUnits "M  staged.ts", by decide, by decide, by decide, by decide⟩

/-- One porcelain v1 status entry: index column, working-tree column, and
the path text after the separating space. -/
structure PorcelainEntry where
  x : Nat
  y : Nat
  path : List Nat
deriving DecidableEq, Repr

/-- The two-column porcelain rendering of an entry: the two status
characters, a space, and the path. -/
def encodeEntry (e : PorcelainEntry) : List Nat := e.x :: e.y :: 32 :: e.path

/-- Well-formedness of an entry as a porcelain line: no embedded
newlines, a non-empty path, and no trailing whitespace in the path. -/
def entryWF (e : PorcelainEntry) : Prop :=
  e.x ≠ 10 ∧ e.y ≠ 10 ∧ (∀ a ∈ e.path, a ≠ 10) ∧ e.path ≠ [] ∧
    isJsWs (e.path.getLastD 0) = false

instance entryWF_decidable (e : PorcelainEntry) : Decidable (entryWF e) :=
  decidable_of_iff (e.x ≠ 10 ∧ e.y ≠ 10 ∧ (∀ a ∈ e.path, a ≠ 10) ∧
    e.path ≠ [] ∧ isJsWs (e.path.getLastD 0) = false) (by rw [entryWF])

/-- The staged-only filter as claim C7 states it: drop untracked entries
and entries with a blank index column, keep the rest with the
working-tree column rewritten to a blank and the path unchanged. -/
def claimStagedKeep (e : PorcelainEntry) : Option PorcelainEntry :=
  if e.x = 63 ∧ e.y = 63 then none
  else if e.x = 32 then none
  else some ⟨e.x, 32, e.path⟩

theorem trimEndU_encodeEntry {e : PorcelainEntry} (hwf : entryWF e) :
    trimEndU (encodeEntry e) = encodeEntry e := by
  obtain ⟨-, -, -, hne, hlast⟩ := hwf
  refine trimEndU_eq_self ?_
  intro d r2 hdr
  have hdecomp := List.dropLast_append_getLast hne
  have henc : encodeEntry e =
      (e.x :: e.y :: 32 :: e.path.dropLast) ++ [e.path.getLast hne] := by
    rw [encodeEntry]
    conv_lhs => rw [← hdecomp]
    simp
  rw [henc] at hdr
  rw [last_unit_of_append hdr]
  have : e.path.getLastD 0 = e.path.getLast hne := by
    conv_lhs => rw [← hdecomp]
    rw [List.getLastD_concat]
  rw [← this]
  exact hlast

theorem stagedOnlyLine_encodeEntry {e : PorcelainEntry} (hwf : entryWF e) :
    stagedOnlyLine (encodeEntry e) = (claimStagedKeep e).map encodeEntry := by
  rw [stagedOnlyLine, trimEndU_encodeEntry hwf, claimStagedKeep]
  have h3 : ¬ ((encodeEntry e).length < 3) := by
    rw [encodeEntry]
    simp
  rw [if_neg h3]
  have hg0 : (encodeEntry e).getD 0 0 = e.x := by rw [encodeEntry]; rfl
  have hg1 : (encodeEntry e).getD 1 0 = e.y := by rw [encodeEntry]; rfl
  have hd3 : (encodeEntry e).drop 3 = e.path := by rw [encodeEntry]; rfl
  rw [hg0, hg1, hd3]
  by_cases hq : e.x = 63 ∧ e.y = 63
  · rw [if_pos hq]
    have : (e.x = 63 && e.y = 63) = true := by simp [hq.1, hq.2]
    rw [if_pos this]
    rfl
  · rw [if_neg hq]
    have : ¬ ((e.x = 63 && e.y = 63) = true) := by
      simp only [Bool.and_eq_true, decide_eq_true_eq]
      exact hq
    rw [if_neg this]
    by_cases hx : e.x = 32
    · rw [if_pos hx, if_pos (by simpa using hx)]
      rfl
    · rw [if_neg hx, if_neg (by simpa using hx)]
      rfl

theorem filterMap_encode_entries :
    ∀ {entries : List PorcelainEntry}, (∀ e ∈ entries, entryWF e) →
      (entries.map encodeEntry).filterMap stagedOnlyLine =
        (entries.filterMap claimStagedKeep).map encodeEntry
  | [], _ => rfl
  | e :: rest, hwf => by
    have hrest := filterMap_encode_entries
      (fun x hx => hwf x (List.mem_cons_of_mem e hx))
    simp only [List.map_cons, List.filterMap_cons]
    rw [stagedOnlyLine_encodeEntry (hwf e (List.mem_cons_self e rest))]
    rcases hk : claimStagedKeep e with _ | e2
    · simp only [Option.map_none', List.filterMap_cons, hk]
      exact hrest
    · simp only [Option.map_some', List.filterMap_cons, hk, List.map_cons]
      rw [hrest]

/-- C7: on well-formed porcelain entries, the staged-only status filter
keeps exactly the non-untracked entries with a non-blank index column,
blanks each kept entry's working-tree column, preserves the path text,
and drops untracked-only lines. -/
theorem c7_staged_only_status (entries : List PorcelainEntry)
    (hwf : ∀ e ∈ entries, entryWF e) :
    stagedOnlyStatusFromPorcelainV1 (joinNl (entries.map encodeEntry)) =
      joinNl ((entries.filterMap claimStagedKeep).map encodeEntry) := by
  rcases entries with _ | ⟨e0, erest⟩
  · decide
  · rw [stagedOnlyStatusFromPorcelainV1]
    rw [splitNl_joinNl _ (by simp) ?hnl]
    case hnl =>
      intro x hx a ha
      obtain ⟨e, he, rfl⟩ := List.mem_map.mp hx
      obtain ⟨hx10, hy10, hp10, -, -⟩ := hwf e he
      simp only [encodeEntry, List.mem_cons] at ha
      rcases ha with rfl | rfl | rfl | hpa
      · exact hx10
      · exact hy10
      · decide
      · exact hp10 a hpa
    rw [filterMap_encode_entries hwf]

/-- Witness for C7 at the concrete status of the repository test suite:
an unstaged entry, an untracked entry, a staged-and-modified entry, and
a staged-only entry. -/
theorem c7_witness :
    stagedOnlyStatusFromPorcelainV1 (joinNl
      ([⟨32, 77, toUnits "only-unstaged.ts"⟩, ⟨63, 63, toUnits "untracked.ts"⟩,
        ⟨77, 77, toUnits "both.ts"⟩,
        ⟨77, 32, toUnits "staged-only.ts"⟩].map encodeEntry)) =
      toUnits "M  both.ts\nM  staged-only.ts" :=
  (c7_staged_only_status
    [⟨32, 77, toUnits "only-unstaged.ts"⟩, ⟨63, 63, toUnits "untracked.ts"⟩,
      ⟨77, 77, toUnits "both.ts"⟩, ⟨77, 32, toUnits "staged-only.ts"⟩]
    (by decide)).trans (by decide)

/-- C8: short texts pass through truncation unmodified; long texts are
cut to a head and tail of floor((maxDiffChars - 60) / 2) characters each
around the ellipsis marker line, so the output begins and ends with the
same characters as the input and stays within maxDiffChars plus the
marker overhead; the hypothesis is the configuration floor of 60 that
keeps the kept width non-negative (settings clamp it to at least
1000). -/
theorem c8_truncate_middle (text : List Nat) (maxChars : Nat)
    (h60 : 60 ≤ maxChars) :
    (text.length ≤ maxChars → truncateMiddle text maxChars = text) ∧
    (maxChars < text.length →
      truncateMiddle text maxChars =
        text.take ((maxChars - 60) / 2) ++ truncMarker ++
          text.drop (text.length - (maxChars - 60) / 2) ∧
      (truncateMiddle text maxChars).take ((maxChars - 60) / 2) =
        text.take ((maxChars - 60) / 2) ∧
      (truncateMiddle text maxChars).drop
          ((truncateMiddle text maxChars).length - (maxChars - 60) / 2) =
        text.drop (text.length - (maxChars - 60) / 2) ∧
      (truncateMiddle text maxChars).length ≤ maxChars + truncMarker.length) := by
  have hk : ((maxChars : Int) - 60).fdiv 2 = (((maxChars - 60) / 2 : Nat) : Int) := by
    rw [show ((maxChars : Int) - 60) = (((maxChars - 60 : Nat)) : Int) from by omega]
    rw [Int.fdiv_eq_tdiv (by omega) (by omega)]
    exact (Int.ofNat_tdiv _ 2).symm
  constructor
  · intro hle
    rw [truncateMiddle, if_pos hle]
  · intro hlt
    have hnle : ¬ (text.length ≤ maxChars) := by omega
    have hkb : 2 * ((maxChars - 60) / 2) ≤ maxChars - 60 := by
      have := Nat.div_mul_le_self (maxChars - 60) 2
      omega
    have htake_arg : (max 0 (((maxChars : Int) - 60).fdiv 2)).toNat =
        (maxChars - 60) / 2 := by
      rw [hk]
      omega
    have hdrop_arg : (max 0 ((text.length : Int) -
        ((maxChars : Int) - 60).fdiv 2)).toNat =
        text.length - (maxChars - 60) / 2 := by
      rw [hk]
      omega
    have heq : truncateMiddle text maxChars =
        text.take ((maxChars - 60) / 2) ++ truncMarker ++
          text.drop (text.length - (maxChars - 60) / 2) := by
      rw [truncateMiddle, if_neg hnle, htake_arg, hdrop_arg]
    have hlenA : (text.take ((maxChars - 60) / 2)).length =
        (maxChars - 60) / 2 := by
      rw [List.length_take]
      omega
    have hlenB : (text.drop (text.length - (maxChars - 60) / 2)).length =
        (maxChars - 60) / 2 := by
      rw [List.length_drop]
      omega
    refine ⟨heq, ?_, ?_, ?_⟩
    · rw [heq, List.append_assoc, List.take_left' hlenA]
    · rw [heq]
      have harg : (text.take ((maxChars - 60) / 2) ++ truncMarker ++
            text.drop (text.length - (maxChars - 60) / 2)).length -
          (maxChars - 60) / 2 =
          (text.take ((maxChars - 60) / 2) ++ truncMarker).length := by
        simp only [List.length_append, hlenA, hlenB]
        omega
      rw [harg, List.drop_left]
    · rw [heq]
      simp only [List.length_append, hlenA, hlenB]
      have hm : truncMarker.length = 26 := by decide
      omega

/-- Witness for C8 at a 200-character text and the limit 100 from the
testable-properties section. -/
theorem c8_witness :
    truncateMiddle (List.replicate 200 97) 100 =
      (List.replicate 200 97).take 20 ++ truncMarker ++
        (List.replicate 200 97).drop 180 ∧
    truncateMiddle (toUnits "short") 100 = toUnits "short" :=
  ⟨((c8_truncate_middle (List.replicate 200 97) 100 (by omega)).2
      (by simp)).1,
   (c8_truncate_middle (toUnits "short") 100 (by omega)).1 (by decide)⟩

/-- C10: validation is a function of the message's first line after CRLF
normalization and trimming; two messages with identical normalized
trimmed first lines validate identically, so body text never influences
the outcome. -/
theorem c10_validate_first_line_only (aT aS : List (List Nat)) (maxLen : Nat)
    (m1 m2 : List Nat) (h : headerLineOf m1 = headerLineOf m2) :
    validateCommitMessage aT aS maxLen m1 =
      validateCommitMessage aT aS maxLen m2 := by
  rw [validateCommitMessage, validateCommitMessage, h]

/-- Witness for C10 at two concrete messages sharing a header with
entirely different bodies. -/
theorem c10_witness :
    validateCommitMessage [toUnits "feat"] [toUnits "core"] 80
        (toUnits "feat(core): ok\nbody one") =
      validateCommitMessage [toUnits "feat"] [toUnits "core"] 80
        (toUnits "feat(core): ok\r\nan entirely different body\nmore") :=
  c10_validate_first_line_only [toUnits "feat"] [toUnits "core"] 80
    (toUnits "feat(core): ok\nbody one")
    (toUnits "feat(core): ok\r\nan entirely different body\nmore")
    (by decide)

set_option maxHeartbeats 2000000 in
/-- C4: the orchestrator makes at most two generation calls, makes
exactly one call precisely when the first normalized-and-repaired output
validates (returning it), raises an error exactly when both attempts
fail validation, and that error prepends the fixed text to the second
attempt's validation reason. -/
theorem c4_generate_retry (aT aS : List (List Nat)) (maxLen : Nat)
    (gen : Nat → List Nat) :
    (generateWithValidationAndRetry aT aS maxLen gen).2 ≤ 2 ∧
    ((generateWithValidationAndRetry aT aS maxLen gen).2 = 1 ↔
      validateCommitMessage aT aS maxLen (tryRepairSubjectLengthOnly aT aS
        maxLen (normalizeCommitMessageText (gen 0))) = .ok) ∧
    (validateCommitMessage aT aS maxLen (tryRepairSubjectLengthOnly aT aS
        maxLen (normalizeCommitMessageText (gen 0))) = .ok →
      (generateWithValidationAndRetry aT aS maxLen gen).1 =
        .ok (tryRepairSubjectLengthOnly aT aS maxLen
          (normalizeCommitMessageText (gen 0)))) ∧
    (∀ r2, validateCommitMessage aT aS maxLen (tryRepairSubjectLengthOnly aT
        aS maxLen (normalizeCommitMessageText (gen 1))) = .invalid r2 →
      validateCommitMessage aT aS maxLen (tryRepairSubjectLengthOnly aT aS
        maxLen (normalizeCommitMessageText (gen 0))) ≠ .ok →
      (generateWithValidationAndRetry aT aS maxLen gen).1 =
        .error (retryErrorUnits ++ r2)) ∧
    ((∃ e, (generateWithValidationAndRetry aT aS maxLen gen).1 = .error e) ↔
      (validateCommitMessage aT aS maxLen (tryRepairSubjectLengthOnly aT aS
        maxLen (normalizeCommitMessageText (gen 0))) ≠ .ok ∧
      validateCommitMessage aT aS maxLen (tryRepairSubjectLengthOnly aT aS
        maxLen (normalizeCommitMessageText (gen 1))) ≠ .ok)) := by
  rcases hv1 : validateCommitMessage aT aS maxLen (tryRepairSubjectLengthOnly
      aT aS maxLen (normalizeCommitMessageText (gen 0))) with _ | r1
  · have hr : generateWithValidationAndRetry aT aS maxLen gen =
        (.ok (tryRepairSubjectLengthOnly aT aS maxLen
          (normalizeCommitMessageText (gen 0))), 1) := by
      rw [generateWithValidationAndRetry, hv1]
    rw [hr]
    refine ⟨by omega, by simp, fun _ => rfl, ?_, by simp⟩
    intro r2 _ hne
    exact absurd rfl hne
  · rcases hv2 : validateCommitMessage aT aS maxLen (tryRepairSubjectLengthOnly
        aT aS maxLen (normalizeCommitMessageText (gen 1))) with _ | r2
    · have hr : generateWithValidationAndRetry aT aS maxLen gen =
          (.ok (tryRepairSubjectLengthOnly aT aS maxLen
            (normalizeCommitMessageText (gen 1))), 2) := by
        rw [generateWithValidationAndRetry, hv1]
        simp only
        rw [hv2]
      rw [hr]
      refine ⟨by omega, by simp, ?_, ?_, by simp⟩
      · intro hok
        exact absurd hok (by simp)
      · intro r2' h2' _
        exact absurd h2' (by simp)
    · have hr : generateWithValidationAndRetry aT aS maxLen gen =
          (.error (retryErrorUnits ++ r2), 2) := by
        rw [generateWithValidationAndRetry, hv1]
        simp only
        rw [hv2]
      rw [hr]
      refine ⟨by omega, by simp, ?_, ?_, ?_⟩
      · intro hok
        exact absurd hok (by simp)
      · intro r2' h2' _
        obtain rfl : r2 = r2' := VResult.invalid.inj h2'
        rfl
      · constructor
        · intro _
          exact ⟨by simp, by simp [hv2]⟩
        · intro _
          exact ⟨retryErrorUnits ++ r2, rfl⟩

/-- Witness for C4 at a generation oracle whose first output already
validates: one call, returned as is. -/
theorem c4_witness :
    (generateWithValidationAndRetry [toUnits "feat"] [toUnits "core"] 80
        (fun _ => toUnits "feat(core): ok")).1 =
      .ok (tryRepairSubjectLengthOnly [toUnits "feat"] [toUnits "core"] 80
        (normalizeCommitMessageText (toUnits "feat(core): ok"))) ∧
    (generateWithValidationAndRetry [toUnits "feat"] [toUnits "core"] 80
        (fun _ => toUnits "feat(core): ok")).2 = 1 :=
  ⟨(c4_generate_retry [toUnits "feat"] [toUnits "core"] 80
      (fun _ => toUnits "feat(core): ok")).2.2.1 (by decide),
   ((c4_generate_retry [toUnits "feat"] [toUnits "core"] 80
      (fun _ => toUnits "feat(core): ok")).2.1).mpr (by decide)⟩

/-- C1 (spec-modelled): under the optional scope mode, a message whose
header parses with an allowed type, a non-empty subject within the
limit, and no scope validates as ok; and when a scope is present, the
scoped validator only returns ok if the scope is an allowed one. -/
theorem c1_scope_optional (aT aS : List (List Nat)) (maxLen : Nat)
    (message : List Nat) (h : ParsedCommitHeader)
    (hp : parseCommitHeader (headerLineOf message) = some h) :
    (h.scope = none → aT.contains h.type = true → h.subject ≠ [] →
      h.subject.length ≤ maxLen →
      validateCommitMessageScoped aT aS maxLen .onlyIfNoGoodScope message =
        .ok) ∧
    (∀ s, h.scope = some s →
      validateCommitMessageScoped aT aS maxLen .onlyIfNoGoodScope message =
        .ok →
      aS.contains s = true) := by
  constructor
  · intro hsc hty hsub hlen
    rw [validateCommitMessageScoped, validateHeaderLineScoped, hp]
    simp only
    rw [if_neg (by rw [hty]; decide)]
    rw [hsc, scopeCheckScoped]
    simp only
    rw [if_neg hsub, if_neg (by omega)]
  · intro s hsc hok
    by_contra hns
    rw [validateCommitMessageScoped, validateHeaderLineScoped, hp] at hok
    split at hok
    · exact absurd hok (by simp)
    · rename_i parsed2 heq
      obtain rfl : h = parsed2 := Option.some.inj heq
      split at hok
      · exact absurd hok (by simp)
      · rw [hsc] at hok
        simp only [scopeCheckScoped] at hok
        rw [if_pos (by simpa using hns)] at hok
        exact absurd hok (by simp)

/-- Witness for C1 at the optional-scope test cases of the repository
test suite: an unscoped message validates, and a scoped ok message has
its scope in the allowed list. -/
theorem c1_witness :
    validateCommitMessageScoped [toUnits "chore", toUnits "feat"]
        [toUnits "deps"] 80 .onlyIfNoGoodScope
        (toUnits "chore: update deps") = .ok ∧
    ([toUnits "deps"] : List (List Nat)).contains (toUnits "deps") = true :=
  ⟨(c1_scope_optional [toUnits "chore", toUnits "feat"] [toUnits "deps"] 80
      (toUnits "chore: update deps")
      ⟨toUnits "chore", none, false, toUnits "update deps"⟩ (by decide)).1
      rfl (by decide) (by decide) (by decide),
   (c1_scope_optional [toUnits "chore", toUnits "feat"] [toUnits "deps"] 80
      (toUnits "chore(deps): update deps")
      ⟨toUnits "chore", some (toUnits "deps"), false, toUnits "update deps"⟩
      (by decide)).2 (toUnits "deps") rfl (by decide)⟩

theorem pickBest_fold_spec (fp : List Nat) :
    ∀ (repos : List RepoM) (acc : Option (RepoM × Nat)),
      (∀ r len, acc = some (r, len) → ∃ rp, r.rootPath = some rp ∧
        pathMatches fp rp = true ∧ len = rp.length) →
      (repos.foldl (pickBestStep fp) acc = none →
        acc = none ∧ ∀ r2 ∈ repos, ∀ rp2, r2.rootPath = some rp2 →
          pathMatches fp rp2 = false) ∧
      (∀ r len, repos.foldl (pickBestStep fp) acc = some (r, len) →
        (∃ rp, r.rootPath = some rp ∧ pathMatches fp rp = true ∧
          len = rp.length) ∧
        (acc = some (r, len) ∨ r ∈ repos) ∧
        (∀ r2 ∈ repos, ∀ rp2, r2.rootPath = some rp2 →
          pathMatches fp rp2 = true → rp2.length ≤ len) ∧
        (∀ r0 l0, acc = some (r0, l0) → l0 ≤ len))
  | [], acc, hacc => by
    refine ⟨fun hnone => ⟨hnone, by simp⟩, ?_⟩
    intro r len hfold
    simp only [List.foldl_nil] at hfold
    exact ⟨hacc r len hfold, Or.inl hfold, by simp, fun r0 l0 h0 => by
      rw [hfold] at h0
      obtain ⟨-, h2⟩ := Prod.mk.inj (Option.some.inj h0)
      omega⟩
  | repo :: rest, acc, hacc => by
    have hstep : ∀ r len, pickBestStep fp acc repo = some (r, len) →
        ∃ rp, r.rootPath = some rp ∧ pathMatches fp rp = true ∧
          len = rp.length := by
      intro r len hs
      rw [pickBestStep] at hs
      rcases hrp : repo.rootPath with _ | rootPath
      · rw [hrp] at hs
        exact hacc r len hs
      · rw [hrp] at hs
        simp only at hs
        split at hs
        · rcases haccv : acc with _ | ⟨r0, l0⟩
          · rw [haccv] at hs
            simp only at hs
            obtain ⟨h1, h2⟩ := Prod.mk.inj (Option.some.inj hs)
            exact ⟨rootPath, by rw [← h1, hrp], by
              rename_i hm
              exact hm, h2.symm⟩
          · rw [haccv] at hs
            simp only at hs
            split at hs
            · obtain ⟨h1, h2⟩ := Prod.mk.inj (Option.some.inj hs)
              exact ⟨rootPath, by rw [← h1, hrp], by
                rename_i hm _
                exact hm, h2.symm⟩
            · exact hacc r len (haccv.trans hs)
        · exact hacc r len hs
    have ih := pickBest_fold_spec fp rest (pickBestStep fp acc repo) hstep
    constructor
    · intro hnone
      rw [List.foldl_cons] at hnone
      obtain ⟨hsnone, hrest⟩ := ih.1 hnone
      have hthis : acc = none ∧ ∀ rp2, repo.rootPath = some rp2 →
          pathMatches fp rp2 = false := by
        rw [pickBestStep] at hsnone
        rcases hrp : repo.rootPath with _ | rootPath
        · rw [hrp] at hsnone
          exact ⟨hsnone, fun rp2 h2 => by simp at h2⟩
        · rw [hrp] at hsnone
          simp only at hsnone
          split at hsnone
          · rcases haccv : acc with _ | ⟨r0, l0⟩
            · rw [haccv] at hsnone
              simp at hsnone
            · rw [haccv] at hsnone
              simp only at hsnone
              split at hsnone
              · simp at hsnone
              · simp at hsnone
          · rename_i hm
            refine ⟨hsnone, ?_⟩
            intro rp2 h2
            obtain rfl : rootPath = rp2 := Option.some.inj h2
            simpa using hm
      refine ⟨hthis.1, ?_⟩
      intro r2 hr2 rp2 hrp2
      rcases List.mem_cons.mp hr2 with rfl | hr2r
      · exact hthis.2 rp2 hrp2
      · exact hrest r2 hr2r rp2 hrp2
    · intro r len hfold
      rw [List.foldl_cons] at hfold
      obtain ⟨hrfacts, hor, hbound, haccle⟩ := ih.2 r len hfold
      refine ⟨hrfacts, ?_, ?_, ?_⟩
      · rcases hor with hacceq | hmem
        · rw [pickBestStep] at hacceq
          rcases hrp : repo.rootPath with _ | rootPath
          · rw [hrp] at hacceq
            exact Or.inl hacceq
          · rw [hrp] at hacceq
            simp only at hacceq
            split at hacceq
            · rcases haccv : acc with _ | ⟨r0, l0⟩
              · rw [haccv] at hacceq
                simp only at hacceq
                obtain ⟨h1, -⟩ := Prod.mk.inj (Option.some.inj hacceq)
                cases h1
                exact Or.inr (List.mem_cons_self _ _)
              · rw [haccv] at hacceq
                simp only at hacceq
                split at hacceq
                · obtain ⟨h1, -⟩ := Prod.mk.inj (Option.some.inj hacceq)
                  cases h1
                  exact Or.inr (List.mem_cons_self _ _)
                · exact Or.inl hacceq
            · exact Or.inl hacceq
        · exact Or.inr (List.mem_cons_of_mem repo hmem)
      · intro r2 hr2 rp2 hrp2 hm2
        rcases List.mem_cons.mp hr2 with rfl | hr2r
        · -- the head repo's matching root is bounded by the step output
          have hle : ∀ r0 l0, pickBestStep fp acc r2 = some (r0, l0) →
              rp2.length ≤ l0 := by
            intro r0 l0 hs
            rw [pickBestStep, hrp2] at hs
            simp only at hs
            rw [if_pos hm2] at hs
            rcases haccv : acc with _ | ⟨ra, la⟩
            · rw [haccv] at hs
              simp only at hs
              obtain ⟨-, h2⟩ := Prod.mk.inj (Option.some.inj hs)
              omega
            · rw [haccv] at hs
              simp only at hs
              split at hs
              · obtain ⟨-, h2⟩ := Prod.mk.inj (Option.some.inj hs)
                omega
              · rename_i hlt
                obtain ⟨-, h2⟩ := Prod.mk.inj (Option.some.inj hs)
                omega
          rcases hsv : pickBestStep fp acc r2 with _ | ⟨r0, l0⟩
          · -- impossible: with a match present the step cannot be none
            rw [pickBestStep, hrp2] at hsv
            simp only at hsv
            rw [if_pos hm2] at hsv
            rcases haccv : acc with _ | ⟨ra, la⟩
            · rw [haccv] at hsv
              simp at hsv
            · rw [haccv] at hsv
              simp only at hsv
              split at hsv <;> simp at hsv
          · have h1 := hle r0 l0 hsv
            have h2 := haccle r0 l0 hsv
            omega
        · exact hbound r2 hr2r rp2 hrp2 hm2
      · intro r0 l0 h0
        -- the accumulator only grows along the step
        have hstepge : ∀ ra la, pickBestStep fp acc repo = some (ra, la) →
            l0 ≤ la := by
          intro ra la hs
          rw [pickBestStep] at hs
          rcases hrp : repo.rootPath with _ | rootPath
          · rw [hrp] at hs
            rw [h0] at hs
            obtain ⟨-, h2⟩ := Prod.mk.inj (Option.some.inj hs)
            omega
          · rw [hrp] at hs
            simp only at hs
            split at hs
            · rw [h0] at hs
              simp only at hs
              split at hs
              · rename_i hlt
                obtain ⟨-, h2⟩ := Prod.mk.inj (Option.some.inj hs)
                omega
              · obtain ⟨-, h2⟩ := Prod.mk.inj (Option.some.inj hs)
                omega
            · rw [h0] at hs
              obtain ⟨-, h2⟩ := Prod.mk.inj (Option.some.inj hs)
              omega
        rcases hsv : pickBestStep fp acc repo with _ | ⟨ra, la⟩
        · rw [pickBestStep] at hsv
          rcases hrp : repo.rootPath with _ | rootPath
          · rw [hrp, h0] at hsv
            simp at hsv
          · rw [hrp] at hsv
            simp only at hsv
            split at hsv
            · rw [h0] at hsv
              simp only at hsv
              split at hsv <;> simp at hsv
            · rw [h0] at hsv
              simp at hsv
        · have h1 := hstepge ra la hsv
          have h2 := haccle ra la hsv
          omega

theorem pickBestRepoForPath_props (repositories : List RepoM) (fp : List Nat) :
    ((∃ r ∈ repositories, ∃ rp, r.rootPath = some rp ∧
        pathMatches fp rp = true) →
      ∃ repo rp, pickBestRepoForPath repositories fp = some repo ∧
        repo ∈ repositories ∧ repo.rootPath = some rp ∧
        pathMatches fp rp = true ∧
        ∀ r2 ∈ repositories, ∀ rp2, r2.rootPath = some rp2 →
          pathMatches fp rp2 = true → rp2.length ≤ rp.length) ∧
    ((∀ r2 ∈ repositories, ∀ rp2, r2.rootPath = some rp2 →
        pathMatches fp rp2 = false) →
      pickBestRepoForPath repositories fp = repositories.head?) := by
  have hspec := pickBest_fold_spec fp repositories none (by simp)
  constructor
  · rintro ⟨r, hr, rp, hrp, hm⟩
    rcases hfold : repositories.foldl (pickBestStep fp) none with _ | ⟨repo, len⟩
    · obtain ⟨-, hall⟩ := hspec.1 hfold
      exact absurd (hall r hr rp hrp) (by simp [hm])
    · obtain ⟨⟨rp0, hrp0, hm0, hlen0⟩, hor, hbound, -⟩ := hspec.2 repo len hfold
      refine ⟨repo, rp0, ?_, ?_, hrp0, hm0, ?_⟩
      · rw [pickBestRepoForPath, hfold]
      · rcases hor with h | h
        · simp at h
        · exact h
      · intro r2 h2 rp2 hrp2 hm2
        have := hbound r2 h2 rp2 hrp2 hm2
        omega
  · intro hnone
    rcases hfold : repositories.foldl (pickBestStep fp) none with _ | ⟨repo, len⟩
    · rw [pickBestRepoForPath, hfold]
    · obtain ⟨⟨rp0, hrp0, hm0, -⟩, hor, -, -⟩ := hspec.2 repo len hfold
      rcases hor with h | h
      · simp at h
      · exact absurd (hnone repo h rp0 hrp0) (by simp [hm0])

/-- C3 (amended): the router's actual priority order is the
context-bound input box, then the git-extension repository list scoped
to the known working-directory path, then the generic source-control
input box, then the repository list without a path, then the clipboard
(so the run never fails on a sink error); repository selection prefers
the longest matching root path and falls back to the first repository
when nothing matches. -/
theorem c3_present_priority (env : PresentEnv) :
    ((∃ ib, env.preferred = some ib ∧ ib.throwsOnSet = false) →
      presentCommitMessage env = .scm) ∧
    (¬ (∃ ib, env.preferred = some ib ∧ ib.throwsOnSet = false) →
      (∃ fp, env.folderPath = some fp ∧
        tryInsertViaGitExtension env (some fp) = true) →
      presentCommitMessage env = .git) ∧
    (¬ (∃ ib, env.preferred = some ib ∧ ib.throwsOnSet = false) →
      ¬ (∃ fp, env.folderPath = some fp ∧
        tryInsertViaGitExtension env (some fp) = true) →
      (∃ ib, env.scmInputBox = some ib ∧ ib.throwsOnSet = false) →
      presentCommitMessage env = .scm) ∧
    (¬ (∃ ib, env.preferred = some ib ∧ ib.throwsOnSet = false) →
      ¬ (∃ fp, env.folderPath = some fp ∧
        tryInsertViaGitExtension env (some fp) = true) →
      ¬ (∃ ib, env.scmInputBox = some ib ∧ ib.throwsOnSet = false) →
      tryInsertViaGitExtension env none = true →
      presentCommitMessage env = .git) ∧
    (¬ (∃ ib, env.preferred = some ib ∧ ib.throwsOnSet = false) →
      ¬ (∃ fp, env.folderPath = some fp ∧
        tryInsertViaGitExtension env (some fp) = true) →
      ¬ (∃ ib, env.scmInputBox = some ib ∧ ib.throwsOnSet = false) →
      ¬ tryInsertViaGitExtension env none = true →
      presentCommitMessage env = .clipboard) ∧
    (∀ repositories fp,
      (∃ r ∈ repositories, ∃ rp, r.rootPath = some rp ∧
          pathMatches fp rp = true) →
        ∃ repo rp, pickBestRepoForPath repositories fp = some repo ∧
          repo ∈ repositories ∧ repo.rootPath = some rp ∧
          pathMatches fp rp = true ∧
          ∀ r2 ∈ repositories, ∀ rp2, r2.rootPath = some rp2 →
            pathMatches fp rp2 = true → rp2.length ≤ rp.length) ∧
    (∀ repositories fp,
      (∀ r2 ∈ repositories, ∀ rp2, r2.rootPath = some rp2 →
          pathMatches fp rp2 = false) →
        pickBestRepoForPath repositories fp = repositories.head?) := by
  have hib : ∀ (o : Option InputBoxM),
      ((match o with
        | some ib => !ib.throwsOnSet
        | none => false) = true) ↔ ∃ ib, o = some ib ∧ ib.throwsOnSet = false := by
    intro o
    rcases o with _ | ib
    · simp
    · simp
  have hfp : ((match env.folderPath with
      | some fp => tryInsertViaGitExtension env (some fp)
      | none => false) = true) ↔
      ∃ fp, env.folderPath = some fp ∧
        tryInsertViaGitExtension env (some fp) = true := by
    rcases env.folderPath with _ | fp
    · simp
    · simp
  refine ⟨?_, ?_, ?_, ?_, ?_,
    fun repositories fp => (pickBestRepoForPath_props repositories fp).1,
    fun repositories fp => (pickBestRepoForPath_props repositories fp).2⟩
  · intro hA
    rw [presentCommitMessage, if_pos ((hib env.preferred).mpr hA)]
  · intro hnA hB
    rw [presentCommitMessage, if_neg (fun hc => hnA ((hib env.preferred).mp hc)),
      if_pos (hfp.mpr hB)]
  · intro hnA hnB hC
    rw [presentCommitMessage, if_neg (fun hc => hnA ((hib env.preferred).mp hc)),
      if_neg (fun hc => hnB (hfp.mp hc)),
      if_pos ((hib env.scmInputBox).mpr hC)]
  · intro hnA hnB hnC hD
    rw [presentCommitMessage, if_neg (fun hc => hnA ((hib env.preferred).mp hc)),
      if_neg (fun hc => hnB (hfp.mp hc)),
      if_neg (fun hc => hnC ((hib env.scmInputBox).mp hc)), if_pos hD]
  · intro hnA hnB hnC hnD
    rw [presentCommitMessage, if_neg (fun hc => hnA ((hib env.preferred).mp hc)),
      if_neg (fun hc => hnB (hfp.mp hc)),
      if_neg (fun hc => hnC ((hib env.scmInputBox).mp hc)), if_neg hnD]

/-- Counterexample to C3 as stated: with no context-bound input box, a
known folder path, a git repository whose root equals that path, and an
available generic source-control input box, the code inserts through
the git extension while the claimed priority order would use the
generic input surface first. -/
theorem c3_counterexample :
    presentCommitMessage
      ⟨none, some (toUnits "/w/repo"),
        some [⟨some (toUnits "/w/repo"), some ⟨false⟩⟩], some ⟨false⟩⟩ =
      .git ∧
    claimOrderRouter
      ⟨none, some (toUnits "/w/repo"),
        some [⟨some (toUnits "/w/repo"), some ⟨false⟩⟩], some ⟨false⟩⟩ =
      .scm ∧
    Sink.git ≠ Sink.scm := by
  exact ⟨by decide, by decide, by decide⟩

/-- Witness for C3 at two concrete environments: a working context-bound
input box wins, and with every sink unavailable the clipboard is
used. -/
theorem c3_witness :
    presentCommitMessage ⟨some ⟨false⟩, none, none, none⟩ = .scm ∧
    presentCommitMessage ⟨none, none, none, none⟩ = .clipboard :=
  ⟨(c3_present_priority ⟨some ⟨false⟩, none, none, none⟩).1 ⟨⟨false⟩, rfl, rfl⟩,
   (c3_present_priority ⟨none, none, none, none⟩).2.2.2.2.1
      (by rintro ⟨ib, h, -⟩; exact Option.noConfusion h)
      (by rintro ⟨fp, h, -⟩; exact Option.noConfusion h)
      (by rintro ⟨ib, h, -⟩; exact Option.noConfusion h)
      (by decide)⟩

end ScopedCommits
